import Mathlib

/-!
# WebDav file server: request dispatch and access control

A shallow embedding of `main.go` (`HttpRequest`, `DownloadFile`, `ReadDirectory`)
together with models of the Go library functions the handler calls
(`strings`, `path/filepath`, `fmt`, `encoding/json`, `os`, `net/http`).

Go strings are modelled as lists of characters.  The separators the code looks
at (`/`, `.`, `_`, `$`) are ASCII, so that working on characters instead of
UTF-8 bytes does not change any result.
-/

set_option autoImplicit false
set_option maxRecDepth 100000

namespace WebDav

/-- Go `string`. -/
abbrev Str := List Char

/-! ## `strings` -/

/-- The loop of `strings.Split(s, sep)` for a non-empty `sep`: scan from the left, cut at
every occurrence of `sep` that does not overlap the previous cut.  `skip` counts the characters
of a separator that was just recognised and still has to be consumed. -/
def splitGo (sep : Str) : Str → Nat → List Str
  | [], _ => [[]]
  | _ :: cs, skip + 1 => splitGo sep cs skip
  | c :: cs, 0 =>
    if sep.isPrefixOf (c :: cs) then [] :: splitGo sep cs (sep.length - 1)
    else
      match splitGo sep cs 0 with
      | [] => [[c]]
      | h :: t => (c :: h) :: t

/-- Go `strings.Split(s, sep)` (for non-empty `sep`). -/
def stringsSplit (s sep : Str) : List Str := splitGo sep s 0

/-- Go `strings.Join(elems, sep)`. -/
def stringsJoin : List Str → Str → Str
  | [], _ => []
  | [a], _ => a
  | a :: b :: rest, sep => a ++ sep ++ stringsJoin (b :: rest) sep

/-- Go `strings.Replace(s, old, new, 1)`: replace the first occurrence of `old`. -/
def replaceFirst (old new : Str) : Str → Str
  | [] => if old = [] then new else []
  | c :: cs =>
    if old.isPrefixOf (c :: cs) then new ++ (c :: cs).drop old.length
    else c :: replaceFirst old new cs

/-- Go `strings.LastIndex(s, sep)`, `none` for `-1`. -/
def lastIndex (s sep : Str) : Option Nat :=
  ((List.range (s.length + 1)).filter (fun i => sep.isPrefixOf (s.drop i))).getLast?

/-! ## `fmt` -/

/-- The verb `%d` of `fmt.Sprintf` on a non-negative `int`. -/
def fmtD (n : Nat) : Str := (Nat.toDigits 10 n)

/-- One lowercase hexadecimal digit. -/
def hexDigit (n : Nat) : Char := "0123456789abcdef".toList.getD n '0'

/-- The verb `%x` of `fmt.Sprintf` on a byte array: two lowercase digits per byte. -/
def fmtX (bytes : List Nat) : Str :=
  bytes.flatMap (fun b => [hexDigit ((b % 256) / 16), hexDigit (b % 16)])

/-! ## `path/filepath` (Unix) -/

/-- The path elements of a path: the pieces between the separators. -/
def splitSlash : Str → List Str
  | [] => [[]]
  | c :: cs =>
    if c = '/' then [] :: splitSlash cs
    else
      match splitSlash cs with
      | [] => [[c]]
      | h :: t => (c :: h) :: t

/-- One round of the loop of `filepath.Clean`, on a whole path element.  `stack` holds the
elements written so far, last one first.  An empty element and `.` are dropped, `..` removes
the last element written when there is one to remove, is dropped at the root of a rooted path
and is kept in front of a relative one. -/
def cleanStep (rooted : Bool) (stack : List Str) (c : Str) : List Str :=
  if c = [] ∨ c = ['.'] then stack
  else if c = ['.', '.'] then
    match stack with
    | [] => if rooted then [] else [c]
    | top :: rest => if top = ['.', '.'] then c :: stack else rest
  else c :: stack

/-- The elements `filepath.Clean` keeps, first one first. -/
def cleanElems (rooted : Bool) (p : Str) : List Str :=
  ((splitSlash p).foldl (cleanStep rooted) []).reverse

/-- Whether a path starts with the separator. -/
def isRooted : Str → Bool
  | c :: _ => c = '/'
  | [] => false

/-- The text of a cleaned path. -/
def renderPath (rooted : Bool) (elems : List Str) : Str :=
  let body := stringsJoin elems ['/']
  let out := if rooted then '/' :: body else body
  if out = [] then ['.'] else out

/-- Go `filepath.Clean`. -/
def Clean (p : Str) : Str :=
  if p = [] then ['.'] else renderPath (isRooted p) (cleanElems (isRooted p) p)

/-- Go `filepath.Join`: leading empty elements are ignored, the rest is joined with the
separator and cleaned; the empty string when every element is empty. -/
def Join (elems : List Str) : Str :=
  match elems.dropWhile (fun e => e = []) with
  | [] => []
  | rest => Clean (stringsJoin rest ['/'])

/-- Go `filepath.Base`. -/
def Base (p : Str) : Str :=
  if p = [] then ['.']
  else
    let stripped := p.reverse.dropWhile (fun c => c = '/')
    let last := (stripped.takeWhile (fun c => c ≠ '/')).reverse
    if last = [] then ['/'] else last

/-- The loop of `filepath.Ext`, reading the path from its end. -/
def extScan : Str → Str → Str
  | [], _ => []
  | c :: rest, acc =>
    if c = '/' then []
    else if c = '.' then c :: acc
    else extScan rest (c :: acc)

/-- Go `filepath.Ext`. -/
def Ext (p : Str) : Str := extScan p.reverse []

/-! ## `os`: the file system

A file system is a finite set of nodes addressed by absolute lists of path elements, and the
working directory of the process.  A path given to the `os` functions has to be one the
system calls accept (no NUL byte, within the length limits of Linux); it is then walked
element by element from the root (rooted path) or from the working directory, and every
element that is passed through has to be an existing directory.  There are no symbolic
links.  A file carries
its bytes and its formatted modification time, a directory its modification time and the size
`Stat` reports for it. -/

inductive Node where
  | file (data : Str) (date : Str)
  | dir (date : Str) (size : Nat)
  deriving DecidableEq, Repr

structure FS where
  cwd : List Str
  nodes : List (List Str × Node)
  deriving DecidableEq, Repr

/-- The node at an absolute location; the root directory always exists. -/
def FS.get (fs : FS) (q : List Str) : Option Node :=
  match fs.nodes.lookup q with
  | some n => some n
  | none => if q = [] then some (Node.dir [] 0) else none

def Node.isDir : Node → Bool
  | Node.dir _ _ => true
  | Node.file _ _ => false

def FS.isDirAt (fs : FS) (q : List Str) : Bool :=
  match fs.get q with
  | some n => n.isDir
  | none => false

/-- Walk the elements of a path from the location `cur`. -/
def FS.walk (fs : FS) : List Str → List Str → Option (List Str)
  | cur, [] => some cur
  | cur, c :: rest =>
    if fs.isDirAt cur then
      if c = [] ∨ c = ['.'] then fs.walk cur rest
      else if c = ['.', '.'] then fs.walk cur.dropLast rest
      else fs.walk (cur ++ [c]) rest
    else none

/-- The walk of a whole path, from the root for a rooted path and from the working
directory otherwise. -/
def FS.walkPath (fs : FS) (p : Str) : Option (List Str) :=
  if p = [] then none
  else fs.walk (if isRooted p then [] else fs.cwd) (splitSlash p)

/-- The length of a string in bytes (UTF-8). -/
def byteLen (s : Str) : Nat := (s.map Char.utf8Size).sum

/-- `NAME_MAX`: the longest path element, in bytes. -/
def nameMax : Nat := 255

/-- `PATH_MAX`: the size a path has to stay below, in bytes. -/
def pathMax : Nat := 4096

/-- The paths the system calls accept at all: not empty, without NUL byte (`EINVAL`),
shorter than `PATH_MAX` and with no element longer than `NAME_MAX` (`ENAMETOOLONG`). -/
def validPath (p : Str) : Bool :=
  decide (p ≠ []) && !(p.contains (Char.ofNat 0)) && decide (byteLen p < pathMax) &&
    (splitSlash p).all (fun c => decide (byteLen c ≤ nameMax))

/-- The location a path names, when the path is accepted and every directory on the way
exists; the last element itself need not exist. -/
def FS.resolve (fs : FS) (p : Str) : Option (List Str) :=
  if validPath p then fs.walkPath p else none

/-- Go `os.Stat`: `none` is an error. -/
def FS.stat (fs : FS) (p : Str) : Option Node :=
  match fs.resolve p with
  | some q => fs.get q
  | none => none

/-- Go `os.ReadFile`: `none` is an error (nothing there, or a directory). -/
def FS.readFile (fs : FS) (p : Str) : Option Str :=
  match fs.stat p with
  | some (Node.file data _) => some data
  | _ => none

/-- Put a node at a location, replacing what was there. -/
def FS.put (fs : FS) (q : List Str) (n : Node) : FS :=
  { fs with nodes := (q, n) :: fs.nodes.filter (fun e => e.1 ≠ q) }

/-- Go `os.Create` followed by `io.Copy` of the bytes `data`: the path has to be one the
system calls accept (`validPath`), the parent directory has to exist and the path must not
name a directory; an existing file is truncated. -/
def FS.create (fs : FS) (p : Str) (data now : Str) : Option FS :=
  match fs.resolve p with
  | none => none
  | some q =>
    match fs.get q with
    | some (Node.dir _ _) => none
    | _ => some (fs.put q (Node.file data now))

/-- Go `os.Mkdir`: the path has to be one the system calls accept, the parent directory
has to exist and nothing may exist at the path. -/
def FS.mkdir (fs : FS) (p : Str) (now : Str) : Option FS :=
  match fs.resolve p with
  | none => none
  | some q =>
    match fs.get q with
    | some _ => none
    | none => some (fs.put q (Node.dir now 4096))

/-- Byte-wise order on strings, the order `os.ReadDir` sorts by. -/
def strLe : Str → Str → Bool
  | [], _ => true
  | _ :: _, [] => false
  | a :: as, b :: bs =>
    if a.toNat < b.toNat then true
    else if a = b then strLe as bs
    else false

def insertEntry (e : Str × Node) : List (Str × Node) → List (Str × Node)
  | [] => [e]
  | x :: xs => if strLe e.1 x.1 then e :: x :: xs else x :: insertEntry e xs

def sortEntries : List (Str × Node) → List (Str × Node)
  | [] => []
  | x :: xs => insertEntry x (sortEntries xs)

/-- The children of a location. -/
def FS.children (fs : FS) (q : List Str) : List (Str × Node) :=
  fs.nodes.filterMap (fun e =>
    match e.1.getLast? with
    | some name => if e.1.dropLast = q then some (name, e.2) else none
    | none => none)

/-- Go `os.ReadDir`: the entries of a directory sorted by filename; `none` is an error. -/
def FS.readDir (fs : FS) (p : Str) : Option (List (Str × Node)) :=
  match fs.resolve p with
  | none => none
  | some q => if fs.isDirAt q then some (sortEntries (fs.children q)) else none

/-! ## `net/http`: the response writer -/

/-- What the handler has written: the header map as it is sent, the status line once it is
written, and the body. -/
structure Writer where
  header : List (Str × Str) := []
  status : Option Nat := none
  body : Str := []
  deriving DecidableEq, Repr

/-- `w.Header().Set(k, v)`; without effect on the response once the status line is out. -/
def Writer.setHeader (w : Writer) (k v : Str) : Writer :=
  match w.status with
  | some _ => w
  | none => { w with header := w.header.filter (fun e => e.1 ≠ k) ++ [(k, v)] }

/-- `w.Header().Add(k, v)`; without effect on the response once the status line is out. -/
def Writer.addHeader (w : Writer) (k v : Str) : Writer :=
  match w.status with
  | some _ => w
  | none => { w with header := w.header ++ [(k, v)] }

/-- `w.WriteHeader(code)`: only the first call counts. -/
def Writer.writeHeader (w : Writer) (code : Nat) : Writer :=
  match w.status with
  | some _ => w
  | none => { w with status := some code }

/-- Statuses that carry no body (`1xx`, `204`, `304`): a write after them is refused. -/
def bodyAllowed (code : Nat) : Bool :=
  !(code / 100 = 1 ∨ code = 204 ∨ code = 304)

/-- `w.Write(b)`: writes status 200 first when none was written. -/
def Writer.write (w : Writer) (b : Str) : Writer :=
  let w1 := w.writeHeader 200
  match w1.status with
  | some code => if bodyAllowed code then { w1 with body := w1.body ++ b } else w1
  | none => w1

/-- Go `http.Error(w, msg, code)`. -/
def httpError (w : Writer) (msg : Str) (code : Nat) : Writer :=
  (((w.setHeader "Content-Type".toList "text/plain; charset=utf-8".toList).setHeader
    "X-Content-Type-Options".toList "nosniff".toList).writeHeader code).write (msg ++ ['\n'])

/-! ## The data of `main.go` -/

structure User where
  Name : Str
  Password : Str
  deriving DecidableEq, Repr

structure File where
  Name : Str
  Path : Str
  Extension : Str
  IsDir : Bool
  Date : Str
  Size : Nat
  deriving DecidableEq, Repr

/-- The flags the handler reads. -/
structure Config where
  fileDirectory : Str
  configs : Str
  enableBasic : Bool
  enableShare : Bool
  deriving DecidableEq, Repr

/-- The two library functions that are left abstract: `sha256.Sum256` (the bytes of the
digest) and `json.Unmarshal` into `Users` (`none` is an error). -/
structure Lib where
  sha256 : Str → List Nat
  unmarshalUsers : Str → Option (List User)

/-- One part of `r.MultipartForm.File["file"]`: its `Filename` and its bytes, `none` when
`item.Open()` fails. -/
structure UploadItem where
  Filename : Str
  content : Option Str
  deriving DecidableEq, Repr

/-- The parsed multipart form: `File["file"]` and `Value["pass"]`. -/
structure Form where
  files : List UploadItem
  pass : List Str
  deriving DecidableEq, Repr

/-- What the handler reads of a request.  `basicAuth` is `r.BasicAuth()` (`none` when the
credentials are missing or malformed), `translate` is `r.Header.Get("Translate")`,
`queryPass` is `r.URL.Query()["pass"]`, `form` is `r.MultipartForm` after
`r.ParseMultipartForm` (`none` is the nil pointer), `now` is the modification time a file
written by this request gets. -/
structure Request where
  method : Str
  urlPath : Str
  translate : Str := []
  basicAuth : Option (Str × Str) := none
  queryPass : List Str := []
  form : Option Form := none
  now : Str := []
  deriving DecidableEq, Repr

/-- What a run of the handler calls, in order. -/
inductive Event where
  | download (path : Str)
  | listing (path : Str)
  | saved (path : Str)
  | webdav (method urlPath : Str)
  deriving DecidableEq, Repr

/-- How a run of the handler ends: it returns, it panics (index out of range, nil pointer),
or the model ran out of fuel in the probe loop of the upload. -/
inductive Outcome where
  | returned
  | panicked
  | outOfFuel
  deriving DecidableEq, Repr

/-- The state after a run of the handler: the file system, the response, the calls made,
the (possibly rewritten) `r.URL.Path`, and how the run ended. -/
structure Result where
  fs : FS
  w : Writer
  trace : List Event
  urlPath : Str
  outcome : Outcome
  deriving DecidableEq, Repr

/-! ## `encoding/json` -/

def dquote : Char := Char.ofNat 34

def backslash : Char := Char.ofNat 92

/-- The escape `\u00XX` of a character below 256. -/
def jsonU00 (n : Nat) : Str :=
  [backslash, 'u', '0', '0', hexDigit (n / 16), hexDigit (n % 16)]

/-- How `json.Marshal` writes one character of a string: the quote and the backslash get a
backslash, newline, carriage return and tab their short escape, the other control
characters and `<`, `>`, `&` the escape `\u00XX`, U+2028 and U+2029 their
four-digit escape; every other character is written as it is. -/
def jsonEscapeChar (c : Char) : Str :=
  if c = dquote ∨ c = backslash then [backslash, c]
  else if c.toNat = 10 then [backslash, 'n']
  else if c.toNat = 13 then [backslash, 'r']
  else if c.toNat = 9 then [backslash, 't']
  else if c.toNat < 32 ∨ c = '<' ∨ c = '>' ∨ c = '&' then jsonU00 c.toNat
  else if c.toNat = 8232 then [backslash, 'u', '2', '0', '2', '8']
  else if c.toNat = 8233 then [backslash, 'u', '2', '0', '2', '9']
  else [c]

/-- A JSON string. -/
def jsonString (s : Str) : Str := [dquote] ++ s.flatMap jsonEscapeChar ++ [dquote]

/-- A JSON object member with a string value. -/
def jsonField (key : String) (value : Str) : Str :=
  jsonString key.toList ++ [':'] ++ value

/-- One `File` as `json.Marshal` writes it, with the keys of the struct tags. -/
def jsonFile (f : File) : Str :=
  [Char.ofNat 123] ++
  stringsJoin
    [ jsonField "name" (jsonString f.Name),
      jsonField "path" (jsonString f.Path),
      jsonField "extension" (jsonString f.Extension),
      jsonField "isDir" (if f.IsDir then "true".toList else "false".toList),
      jsonField "date" (jsonString f.Date),
      jsonField "size" (fmtD f.Size) ] [','] ++
  [Char.ofNat 125]

/-- Go `json.Marshal` on a non-nil `[]File`. -/
def jsonMarshal (files : List File) : Str :=
  ['['] ++ stringsJoin (files.map jsonFile) [','] ++ [']']

/-! ## `DownloadFile` and `ReadDirectory` -/

/-- `DownloadFile(w, r, path)`. -/
def DownloadFile (fs : FS) (r : Request) (w : Writer) (path : Str) : Writer :=
  match fs.readFile path with
  | none => httpError w "Failed Read Dir/File".toList 404
  | some f =>
    ((((w.addHeader "Content-Type".toList "application/force-download".toList).addHeader
      "Content-Length".toList (fmtD f.length)).addHeader
      "Content-Disposition".toList
        ("attachment; filename=".toList ++ [dquote] ++ Base r.urlPath ++ [dquote])).writeHeader
      200).write f

/-- The delimiter of the anonymous password tag. -/
def tagDelim : Str := ['_', '_']

/-- The name `ReadDirectory` works with for the on-disk name `raw`: the name itself with
basic authentication, and otherwise
`strings.Join(names[:len(names)-1], "__")` for `names := strings.Split(raw, "__")`. -/
def listedName (cfg : Config) (raw : Str) : Str :=
  if !cfg.enableBasic then stringsJoin (stringsSplit raw tagDelim).dropLast tagDelim
  else raw

/-- `Stat.Size()` of a node. -/
def Node.size : Node → Nat
  | Node.file data _ => data.length
  | Node.dir _ size => size

/-- `Stat.ModTime().Format(...)` of a node. -/
def Node.date : Node → Str
  | Node.file _ date => date
  | Node.dir date _ => date

/-- The body of the loop of `ReadDirectory` for the directory entry `raw` (whose own type
is `entryIsDir`) with the result `fileStatus` of `os.Stat`. -/
def fileInfo (cfg : Config) (r : Request) (raw : Str) (entryIsDir : Bool)
    (fileStatus : Node) : File :=
  let fileName := listedName cfg raw
  let info : File :=
    { Name := fileName
      Path := Join [r.urlPath, fileName]
      Extension := Ext fileName
      IsDir := fileStatus.isDir
      Date := fileStatus.date
      Size := fileStatus.size }
  if entryIsDir then { info with Name := info.Name ++ ['/'], Extension := "Directory".toList }
  else info

/-- The loop of `ReadDirectory` over the directory entries; `none` is the nil pointer
dereference when `os.Stat` of an entry fails (its error is discarded). -/
def listFiles (cfg : Config) (fs : FS) (r : Request) (path : Str) :
    List (Str × Node) → Option (List File)
  | [] => some []
  | (raw, node) :: rest =>
    match fs.stat (Join [path, raw]) with
    | none => none
    | some fileStatus =>
      match listFiles cfg fs r path rest with
      | none => none
      | some files => some (fileInfo cfg r raw node.isDir fileStatus :: files)

/-- The synthetic first two entries of every listing. -/
def rootEntries : List File :=
  [ { Name := ['/'], Path := ['/'], Extension := "Directory".toList, IsDir := true,
      Date := [], Size := 0 },
    { Name := "../".toList, Path := "../".toList, Extension := "Directory".toList,
      IsDir := true, Date := [], Size := 0 } ]

/-- The placeholder of the template. -/
def placeholder : Str := "${files}".toList

/-- The two substitutions at the end of `ReadDirectory`. -/
def fillTemplate (cfg : Config) (temp : Str) (directoryFiles : List File) : Str :=
  let indexFile := replaceFirst placeholder (jsonMarshal directoryFiles) temp
  if cfg.enableBasic then replaceFirst placeholder "disable".toList indexFile
  else replaceFirst placeholder [] indexFile

/-- `ReadDirectory(w, r, path)`: the response and whether the call panicked. -/
def ReadDirectory (cfg : Config) (fs : FS) (r : Request) (w : Writer) (path : Str) :
    Writer × Outcome :=
  match fs.readDir path with
  | none => (httpError w "Failed Read Dir/File".toList 404, Outcome.returned)
  | some entries =>
    match listFiles cfg fs r path entries with
    | none => (w, Outcome.panicked)
    | some files =>
      match fs.readFile (Join [cfg.configs, "template.html".toList]) with
      | none => (httpError w "Failed Read Dir/File".toList 404, Outcome.returned)
      | some temp => (w.write (fillTemplate cfg temp (rootEntries ++ files)), Outcome.returned)

/-! ## `HttpRequest` -/

/-- The loop over `config.Users` with its `break`: whether some user has this name and
this password hash. -/
def isAuthSuccess (username hash : Str) : List User → Bool
  | [] => false
  | user :: rest =>
    if username = user.Name ∧ hash = user.Password then true
    else isAuthSuccess username hash rest

/-- The answer `http.Error(w, "Not authorized", http.StatusUnauthorized)`. -/
def notAuthorized (w : Writer) : Writer := httpError w "Not authorized".toList 401

/-- The credential check of `HttpRequest` (from `r.BasicAuth()` to the test of
`isAuthSuccess`): the response when the request is turned away, the user name when it is
let through. -/
def checkBasicAuth (lib : Lib) (cfg : Config) (fs : FS) (r : Request) (w : Writer) :
    Except Writer Str :=
  match r.basicAuth with
  | none => Except.error (notAuthorized w)
  | some (username, password) =>
    if username = [] then Except.error (notAuthorized w)
    else
      match fs.readFile (Join [cfg.configs, "users.json".toList]) with
      | none => Except.error (notAuthorized w)
      | some jsonData =>
        match lib.unmarshalUsers jsonData with
        | none => Except.error (notAuthorized w)
        | some users =>
          let hash := fmtX (lib.sha256 password)
          if isAuthSuccess username hash users then Except.ok username
          else Except.error (notAuthorized w)

/-- The block `// create dir` of `HttpRequest`: the file system afterwards, `none` when
`os.Mkdir` fails. -/
def ensureUserDir (cfg : Config) (fs : FS) (r : Request) (username : Str) : Option FS :=
  let parent := Join [cfg.fileDirectory, username]
  match fs.stat parent with
  | some _ => some fs
  | none => fs.mkdir parent r.now

/-- The end of `HttpRequest`: `webdavHandler.ServeHTTP(w, r)` when basic authentication is
enabled.  The WebDAV engine is an external collaborator; the call is recorded, with the
method and the `r.URL.Path` it receives. -/
def passthrough (cfg : Config) (r : Request) (res : Result) : Result :=
  if cfg.enableBasic then
    { res with trace := res.trace ++ [Event.webdav r.method res.urlPath] }
  else res

/-- The name the upload probes at round `i`:
`fmt.Sprintf("%s-%d%s", filepath.Base(name[:len(name)-len(ext)]), i, ext)`. -/
def numberedName (filename : Str) (i : Nat) : Str :=
  Base (filename.take (filename.length - (Ext filename).length)) ++ ['-'] ++ fmtD i ++
    Ext filename

/-- The probe loop of the upload, `for i := 1; true; i++`: the first path `os.Stat` fails
on.  `none` when the fuel runs out. -/
def probe (cfg : Config) (fs : FS) (name urlPath filename : Str) : Nat → Nat → Str → Option Str
  | 0, _, _ => none
  | fuel + 1, i, savePath =>
    match fs.stat savePath with
    | none => some savePath
    | some _ =>
      probe cfg fs name urlPath filename fuel (i + 1)
        (Join [cfg.fileDirectory, name, urlPath, numberedName filename i])

/-- The loop over the uploaded parts, `i` being the index of the part, and the final
`w.WriteHeader(200)`.  The probe loop gets two rounds more than the file system has nodes:
the numbered names of different rounds are different, so that they cannot all exist. -/
def upload (cfg : Config) (r : Request) (name : Str) (pass : List Str) :
    List UploadItem → Nat → FS → Writer → List Event → Result
  | [], _, fs, w, tr =>
    { fs := fs, w := w.writeHeader 200, trace := tr, urlPath := r.urlPath,
      outcome := Outcome.returned }
  | item :: rest, i, fs, w, tr =>
    match item.content with
    | none =>
      { fs := fs, w := httpError w "Failed Read UploadFile".toList 204, trace := tr,
        urlPath := r.urlPath, outcome := Outcome.returned }
    | some src =>
      match probe cfg fs name r.urlPath item.Filename (fs.nodes.length + 2) 1
          (Join [cfg.fileDirectory, name, r.urlPath, item.Filename]) with
      | none =>
        { fs := fs, w := w, trace := tr, urlPath := r.urlPath, outcome := Outcome.outOfFuel }
      | some probed =>
        let tagged : Option Str :=
          if !cfg.enableBasic then
            match pass.get? i with
            | none => none
            | some p => some (probed ++ tagDelim ++ p)
          else some probed
        match tagged with
        | none =>
          { fs := fs, w := w, trace := tr, urlPath := r.urlPath, outcome := Outcome.panicked }
        | some savePath =>
          match fs.create savePath src r.now with
          | none =>
            { fs := fs, w := httpError w "Failed Save UploadFile".toList 204, trace := tr,
              urlPath := r.urlPath, outcome := Outcome.returned }
          | some fs1 => upload cfg r name pass rest (i + 1) fs1 w (tr ++ [Event.saved savePath])

/-- The case `http.MethodGet` with basic authentication. -/
def getBasic (cfg : Config) (fs : FS) (r : Request) (name : Str) (w : Writer) : Result :=
  let path := Join [cfg.fileDirectory, name, r.urlPath]
  match fs.stat path with
  | none =>
    { fs := fs, w := httpError w "Failed Read Dir/File".toList 404, trace := [],
      urlPath := r.urlPath, outcome := Outcome.returned }
  | some requestFile =>
    if requestFile.isDir then
      let out := ReadDirectory cfg fs r w path
      { fs := fs, w := out.1, trace := [Event.listing path], urlPath := r.urlPath,
        outcome := out.2 }
    else
      -- no `return` after `DownloadFile`: control reaches the end of `HttpRequest`
      passthrough cfg r
        { fs := fs, w := DownloadFile fs r w path, trace := [Event.download path],
          urlPath := r.urlPath, outcome := Outcome.returned }

/-- The case `http.MethodGet` without basic authentication. -/
def getOpen (cfg : Config) (fs : FS) (r : Request) (name : Str) (w : Writer) : Result :=
  let path := Join [cfg.fileDirectory, name, r.urlPath]
  match fs.stat path with
  | none =>
    let passwords := r.queryPass
    -- no `return` after this `http.Error`
    let w1 := if passwords.length ≠ 1 then httpError w "Failed Access Dir/File".toList 404 else w
    match passwords with
    | [] =>
      { fs := fs, w := w1, trace := [], urlPath := r.urlPath, outcome := Outcome.panicked }
    | p0 :: _ =>
      let tagged := path ++ tagDelim ++ p0
      { fs := fs, w := DownloadFile fs r w1 tagged, trace := [Event.download tagged],
        urlPath := r.urlPath, outcome := Outcome.returned }
  | some requestFile =>
    if requestFile.isDir then
      let out := ReadDirectory cfg fs r w path
      { fs := fs, w := out.1, trace := [Event.listing path], urlPath := r.urlPath,
        outcome := out.2 }
    else
      { fs := fs, w := httpError w "Failed Access Dir/File".toList 404, trace := [],
        urlPath := r.urlPath, outcome := Outcome.returned }

/-- The case `http.MethodPost`. -/
def postUpload (cfg : Config) (fs : FS) (r : Request) (name : Str) (w : Writer) : Result :=
  match r.form with
  | none => { fs := fs, w := w, trace := [], urlPath := r.urlPath, outcome := Outcome.panicked }
  | some form => upload cfg r name form.pass form.files 0 fs w []

/-- `HttpRequest` after the basic authentication block, `name` being the directory the
request is confined to (empty without basic authentication and in share mode). -/
def route (cfg : Config) (fs : FS) (r : Request) (name : Str) (w : Writer) : Result :=
  if r.translate ≠ ['f'] then
    if r.method = "GET".toList then
      if cfg.enableBasic then getBasic cfg fs r name w else getOpen cfg fs r name w
    else if r.method = "POST".toList then postUpload cfg fs r name w
    else
      passthrough cfg r
        { fs := fs, w := w, trace := [], urlPath := Join [name, r.urlPath],
          outcome := Outcome.returned }
  else
    passthrough cfg r
      { fs := fs, w := w, trace := [], urlPath := Join [name, r.urlPath],
        outcome := Outcome.returned }

/-- The header `HttpRequest` sets before it checks the credentials. -/
def challenge (w : Writer) : Writer :=
  w.setHeader "WWW-Authenticate".toList
    ("Basic realm=".toList ++ [dquote] ++ "Check Login User".toList ++ [dquote])

/-- `HttpRequest(w, r)` on a fresh response writer. -/
def HttpRequest (lib : Lib) (cfg : Config) (fs : FS) (r : Request) : Result :=
  let w : Writer := {}
  if cfg.enableBasic then
    let w := challenge w
    match checkBasicAuth lib cfg fs r w with
    | Except.error w1 =>
      { fs := fs, w := w1, trace := [], urlPath := r.urlPath, outcome := Outcome.returned }
    | Except.ok username =>
      if !cfg.enableShare then
        match ensureUserDir cfg fs r username with
        | none =>
          { fs := fs, w := httpError w "Failed Create User Dir".toList 401, trace := [],
            urlPath := r.urlPath, outcome := Outcome.returned }
        | some fs1 => route cfg fs1 r username w
      else route cfg fs r [] w
  else route cfg fs r [] w

/-! ## The notions the specification speaks of -/

/-- The specification's reading of the un-tagging: the name cut at the last occurrence of
the delimiter (`strings.LastIndex`), the whole name when there is none. -/
def cutAtLast (raw sep : Str) : Str :=
  match lastIndex raw sep with
  | some i => raw.take i
  | none => raw

/-- A plain file name: a single path element that is not `.` or `..`. -/
def PlainName (n : Str) : Prop :=
  n ≠ [] ∧ '/' ∉ n ∧ n ≠ ['.'] ∧ n ≠ ['.', '.']

instance (n : Str) : Decidable (PlainName n) := by
  unfold PlainName
  infer_instance

/-- An element `filepath.Clean` keeps: not empty and without separator. -/
def IsElem (e : Str) : Prop := e ≠ [] ∧ '/' ∉ e

/-- Whether the path `p` lies inside the directory `dir`: it continues `dir/`. -/
def insideDir (dir p : Str) : Bool := (dir ++ ['/']).isPrefixOf p

/-- The text of the sample credential store. -/
def sampleUsersJson : Str := "alice-store".toList

/-- A stand-in for the two abstract library functions, to run the handler on samples: the
digest of a password is its list of character codes, and the sample store parses to the
single user `alice` with the password `pw`. -/
def sampleLib : Lib :=
  { sha256 := fun pw => pw.map (fun c => c.toNat % 256)
    unmarshalUsers := fun data =>
      if data = sampleUsersJson then
        some [{ Name := "alice".toList, Password := "7077".toList }]
      else none }

def sampleTemplate : Str := "<a>${files}</a><b>${files}</b>".toList

def openCfg : Config :=
  { fileDirectory := "./files".toList, configs := "./config".toList,
    enableBasic := false, enableShare := false }

def privateCfg : Config :=
  { fileDirectory := "./files".toList, configs := "./config".toList,
    enableBasic := true, enableShare := false }

/-- A server directory `/srv` with an empty `files`, and `config` holding the template and
the credential store. -/
def sampleFS : FS :=
  { cwd := ["srv".toList]
    nodes :=
      [ (["srv".toList], Node.dir [] 4096),
        (["srv".toList, "files".toList], Node.dir [] 4096),
        (["srv".toList, "config".toList], Node.dir [] 4096),
        (["srv".toList, "config".toList, "template.html".toList], Node.file sampleTemplate []),
        (["srv".toList, "config".toList, "users.json".toList], Node.file sampleUsersJson []) ] }

/-- The sample file system with one more file in `files`. -/
def withFile (fs : FS) (name data : String) : FS :=
  fs.put ["srv".toList, "files".toList, name.toList] (Node.file data.toList [])

/-- The sample file system with the directories of `alice` and `bob` and a file of `bob`. -/
def twoUsersFS : FS :=
  ((sampleFS.put ["srv".toList, "files".toList, "alice".toList] (Node.dir [] 4096)).put
    ["srv".toList, "files".toList, "bob".toList] (Node.dir [] 4096)).put
    ["srv".toList, "files".toList, "bob".toList, "secret.txt".toList]
    (Node.file "BOB".toList [])

def aliceAuth : Option (Str × Str) := some ("alice".toList, "pw".toList)

/-- A `POST` of one file with one `pass` value. -/
def uploadRequest (path name data pass : String) : Request :=
  { method := "POST".toList, urlPath := path.toList,
    form := some { files := [{ Filename := name.toList, content := some data.toList }],
                   pass := [pass.toList] } }

/-- A `GET` with the given `pass` values in the query. -/
def getRequest (path : String) (pass : List String) : Request :=
  { method := "GET".toList, urlPath := path.toList, queryPass := pass.map String.toList }

/-- The file system after a sequence of requests. -/
def runAll (lib : Lib) (cfg : Config) (fs : FS) (rs : List Request) : FS :=
  rs.foldl (fun fs r => (HttpRequest lib cfg fs r).fs) fs

/-- A request with the header `Translate: f`. -/
def davRequest (method path : String) : Request :=
  { method := method.toList, urlPath := path.toList, translate := ['f'] }

/-- An upload of `x.txt` by `alice`. -/
def aliceUpload (data : String) : Request :=
  { uploadRequest "/" "x.txt" data "" with basicAuth := aliceAuth }

/-- A `POST` to `/` of the one file `name` with the bytes `data` and the one `pass` value
`pass`. -/
def postOne (name data pass now : Str) : Request :=
  { method := "POST".toList, urlPath := ['/'],
    form := some { files := [{ Filename := name, content := some data }], pass := [pass] },
    now := now }

/-- The request `GET /name?pass=pass`. -/
def getOne (name pass : Str) : Request :=
  { method := "GET".toList, urlPath := '/' :: name, queryPass := [pass] }

/-- The path of the file `name` in the file directory with the tag of `pass`. -/
def taggedPath (cfg : Config) (name pass : Str) : Str :=
  Join [cfg.fileDirectory, [], ['/'], name] ++ tagDelim ++ pass

/-! ## Theorems -/

/-! ### The library models on the samples of the Go tests and documentation -/

theorem Clean_samples :
    Clean "".toList = ".".toList ∧
    Clean "abc".toList = "abc".toList ∧
    Clean "../../abc".toList = "../../abc".toList ∧
    Clean "/".toList = "/".toList ∧
    Clean "abc/def/".toList = "abc/def".toList ∧
    Clean "abc//def//ghi".toList = "abc/def/ghi".toList ∧
    Clean "//abc//".toList = "/abc".toList ∧
    Clean "abc/./def".toList = "abc/def".toList ∧
    Clean "/./abc/def".toList = "/abc/def".toList ∧
    Clean "abc/def/ghi/../jkl".toList = "abc/def/jkl".toList ∧
    Clean "abc/def/../..".toList = ".".toList ∧
    Clean "/abc/def/../..".toList = "/".toList ∧
    Clean "abc/def/../../..".toList = "..".toList ∧
    Clean "/abc/def/../../..".toList = "/".toList ∧
    Clean "abc/def/../../../ghi/jkl/../../../mno".toList = "../../mno".toList ∧
    Clean "/../abc".toList = "/abc".toList ∧
    Clean "abc/./../def".toList = "def".toList ∧
    Clean "abc/../../././../def".toList = "../../def".toList := by
  decide

theorem Join_samples :
    Join ["a".toList, "b".toList] = "a/b".toList ∧
    Join ["a".toList, []] = "a".toList ∧
    Join [[], "b".toList] = "b".toList ∧
    Join ["/".toList, "a".toList] = "/a".toList ∧
    Join ["/".toList, "a/b".toList] = "/a/b".toList ∧
    Join ["/".toList, []] = "/".toList ∧
    Join ["//".toList, "a".toList] = "/a".toList ∧
    Join ["a/".toList, "b".toList] = "a/b".toList ∧
    Join ["a/".toList, []] = "a".toList ∧
    Join [[], []] = [] ∧
    Join ["a".toList, "b".toList, "../../../xyz".toList] = "../xyz".toList := by
  decide

theorem Base_Ext_samples :
    Base [] = ".".toList ∧
    Base "/.".toList = ".".toList ∧
    Base "////".toList = "/".toList ∧
    Base "x/".toList = "x".toList ∧
    Base "abc/def".toList = "def".toList ∧
    Base "a/b/.x".toList = ".x".toList ∧
    Base "a/b/c.".toList = "c.".toList ∧
    Ext "path.go".toList = ".go".toList ∧
    Ext "path.pb.go".toList = ".go".toList ∧
    Ext "a.dir/b".toList = [] ∧
    Ext "a.dir/b.go".toList = ".go".toList ∧
    Ext "a.dir/".toList = [] := by
  decide

theorem strings_samples :
    stringsSplit "a,b,c".toList ",".toList = ["a".toList, "b".toList, "c".toList] ∧
    stringsSplit "a man a plan a canal panama".toList "a ".toList =
      [[], "man ".toList, "plan ".toList, "canal panama".toList] ∧
    stringsSplit [] "Bernardo".toList = [[]] ∧
    stringsSplit "aaa".toList "aa".toList = [[], "a".toList] ∧
    stringsJoin ["foo".toList, "bar".toList, "baz".toList] ", ".toList =
      "foo, bar, baz".toList ∧
    replaceFirst "k".toList "ky".toList "oink oink oink".toList = "oinky oink oink".toList ∧
    lastIndex "go gopher".toList "go".toList = some 3 ∧
    lastIndex "go gopher".toList "rodent".toList = none ∧
    fmtD 0 = "0".toList ∧ fmtD 42 = "42".toList ∧
    fmtX [0, 171, 255] = "00abff".toList := by
  decide

/-! ### The pieces of `strings.Split` on the tag delimiter -/

theorem splitGo_tag_at_delim (rest : Str) :
    splitGo tagDelim ('_' :: '_' :: rest) 0 = [] :: splitGo tagDelim rest 0 := by
  simp [splitGo, tagDelim, List.isPrefixOf]

theorem splitGo_tag_off_delim (c : Char) (cs : Str) (h : ¬ tagDelim <+: c :: cs) :
    splitGo tagDelim (c :: cs) 0 =
      match splitGo tagDelim cs 0 with
      | [] => [[c]]
      | p :: t => (c :: p) :: t := by
  have h1 : tagDelim.isPrefixOf (c :: cs) = false := by
    rw [Bool.eq_false_iff]
    intro h2
    exact h (List.isPrefixOf_iff_prefix.1 h2)
  simp [splitGo, h1]

theorem stringsJoin_cons_cons (c : Char) (p : Str) (t : List Str) (sep : Str) :
    stringsJoin ((c :: p) :: t) sep = c :: stringsJoin (p :: t) sep := by
  cases t <;> simp [stringsJoin]

theorem stringsJoin_concat (init : List Str) (l sep : Str) (h : init ≠ []) :
    stringsJoin (init ++ [l]) sep = stringsJoin init sep ++ sep ++ l := by
  induction init with
  | nil => exact absurd rfl h
  | cons a rest ih =>
    cases rest with
    | nil => simp [stringsJoin]
    | cons b rest1 =>
      have h1 := ih (by simp)
      show a ++ sep ++ stringsJoin (b :: rest1 ++ [l]) sep = _
      rw [h1]
      simp [stringsJoin, List.append_assoc]

theorem tagDelim_prefix_iff (s : Str) :
    tagDelim <+: s ↔ ∃ rest, s = '_' :: '_' :: rest := by
  constructor
  · rintro ⟨t, rfl⟩
    exact ⟨t, rfl⟩
  · rintro ⟨rest, rfl⟩
    exact ⟨rest, rfl⟩

/-- What `strings.Split` on the delimiter returns: at least one piece, the pieces joined
with the delimiter give the string back, and the last piece holds no delimiter. -/
theorem splitGo_tag_spec (n : Nat) :
    ∀ s : Str, s.length ≤ n →
      ∃ (hne : splitGo tagDelim s 0 ≠ []),
        stringsJoin (splitGo tagDelim s 0) tagDelim = s ∧
        ¬ tagDelim <:+: (splitGo tagDelim s 0).getLast hne := by
  induction n with
  | zero =>
    intro s hs
    have : s = [] := List.length_eq_zero.1 (Nat.le_zero.1 hs)
    subst this
    refine ⟨by simp [splitGo], by simp [splitGo, stringsJoin], ?_⟩
    simp [splitGo, tagDelim]
  | succ n ih =>
    intro s hs
    by_cases hp : tagDelim <+: s
    · obtain ⟨rest, rfl⟩ := (tagDelim_prefix_iff s).1 hp
      have hlen : rest.length ≤ n := by simp at hs; omega
      obtain ⟨hne, hj, hl⟩ := ih rest hlen
      rw [splitGo_tag_at_delim]
      refine ⟨by simp, ?_, ?_⟩
      · rcases hsp : splitGo tagDelim rest 0 with _ | ⟨a, t⟩
        · exact absurd hsp hne
        · rw [hsp] at hj
          simp only [stringsJoin]
          rw [hj]
          rfl
      · rw [List.getLast_cons hne]
        exact hl
    · cases s with
      | nil =>
        refine ⟨by simp [splitGo], by simp [splitGo, stringsJoin], ?_⟩
        simp [splitGo, tagDelim]
      | cons c cs =>
        have hlen : cs.length ≤ n := by simp at hs; omega
        obtain ⟨hne, hj, hl⟩ := ih cs hlen
        rw [splitGo_tag_off_delim c cs hp]
        rcases hsp : splitGo tagDelim cs 0 with _ | ⟨p, t⟩
        · exact absurd hsp hne
        · simp only [hsp] at hj hl ⊢
          refine ⟨by simp, ?_, ?_⟩
          · rw [stringsJoin_cons_cons, hj]
          · cases t with
            | nil =>
              simp only [stringsJoin] at hj
              subst hj
              simp only [List.getLast_singleton] at hl ⊢
              rw [List.infix_cons_iff]
              rintro (h1 | h1)
              · exact hp h1
              · exact hl h1
            | cons b t1 =>
              rw [List.getLast_cons (by simp)]
              rw [List.getLast_cons (by simp)] at hl
              exact hl

/-- A name that holds the delimiter is the listed name, the delimiter, and a rest without
delimiter. -/
theorem listedName_decompose (cfg : Config) (raw : Str) (hopen : cfg.enableBasic = false)
    (hd : tagDelim <:+: raw) :
    ∃ tag, raw = listedName cfg raw ++ tagDelim ++ tag ∧ ¬ tagDelim <:+: tag := by
  obtain ⟨hne, hj, hl⟩ := splitGo_tag_spec raw.length raw (le_refl _)
  have hinit : (splitGo tagDelim raw 0).dropLast ≠ [] := by
    intro h0
    have h1 := List.dropLast_append_getLast hne
    rw [h0, List.nil_append] at h1
    rw [← h1] at hj
    simp only [stringsJoin] at hj
    rw [hj] at hl
    exact hl hd
  refine ⟨(splitGo tagDelim raw 0).getLast hne, ?_, hl⟩
  have h2 := stringsJoin_concat _ ((splitGo tagDelim raw 0).getLast hne) tagDelim hinit
  rw [List.dropLast_append_getLast hne, hj] at h2
  have h3 : listedName cfg raw = stringsJoin (splitGo tagDelim raw 0).dropLast tagDelim := by
    simp [listedName, hopen, stringsSplit]
  rw [h3]
  exact h2

/-- A name that holds no delimiter is one piece, and its listed name is empty. -/
theorem listedName_without_delimiter (cfg : Config) (raw : Str)
    (hopen : cfg.enableBasic = false) (hd : ¬ tagDelim <:+: raw) :
    listedName cfg raw = [] := by
  obtain ⟨hne, hj, hl⟩ := splitGo_tag_spec raw.length raw (le_refl _)
  by_cases hinit : (splitGo tagDelim raw 0).dropLast = []
  · simp [listedName, hopen, stringsSplit, hinit, stringsJoin]
  · exfalso
    have h2 := stringsJoin_concat _ ((splitGo tagDelim raw 0).getLast hne) tagDelim hinit
    rw [List.dropLast_append_getLast hne, hj] at h2
    apply hd
    rw [h2, List.append_assoc]
    exact List.infix_append' _ _ _

theorem lastIndex_eq_some (s sep : Str) (i : Nat) (hi : i ≤ s.length)
    (hp : sep.isPrefixOf (s.drop i) = true)
    (hmax : ∀ j, i < j → sep.isPrefixOf (s.drop j) = false) :
    lastIndex s sep = some i := by
  have key : ∀ k, ((List.range (i + 1 + k)).filter
      (fun j => sep.isPrefixOf (s.drop j))).getLast? = some i := by
    intro k
    induction k with
    | zero =>
      rw [Nat.add_zero, List.range_succ, List.filter_append]
      simp [List.filter, hp]
    | succ k ih =>
      rw [← Nat.add_assoc, List.range_succ, List.filter_append]
      have h1 : List.filter (fun j => sep.isPrefixOf (s.drop j)) [i + 1 + k] = [] := by
        simp [List.filter, hmax (i + 1 + k) (by omega)]
      rw [h1, List.append_nil]
      exact ih
  have h2 : s.length + 1 = i + 1 + (s.length - i) := by omega
  unfold lastIndex
  rw [h2]
  exact key _

/-- When the name has no run of three underscores, the delimiter before the last piece of
`strings.Split` is the last occurrence of the delimiter. -/
theorem listedName_eq_cutAtLast (cfg : Config) (raw : Str) (hopen : cfg.enableBasic = false)
    (hd : tagDelim <:+: raw) (h3 : ¬ ['_', '_', '_'] <:+: raw) :
    listedName cfg raw = cutAtLast raw tagDelim := by
  obtain ⟨tag, hraw, htag⟩ := listedName_decompose cfg raw hopen hd
  generalize listedName cfg raw = pre at hraw ⊢
  subst hraw
  have hidx : lastIndex (pre ++ tagDelim ++ tag) tagDelim = some pre.length := by
    apply lastIndex_eq_some
    · simp
    · rw [List.append_assoc, List.drop_left]
      exact List.isPrefixOf_iff_prefix.2 (List.prefix_append _ _)
    · intro j hj
      rw [Bool.eq_false_iff]
      intro hpre
      have hpre1 := List.isPrefixOf_iff_prefix.1 hpre
      obtain ⟨m, rfl⟩ : ∃ m, j = pre.length + (1 + m) := ⟨j - pre.length - 1, by omega⟩
      rw [List.append_assoc, List.drop_append] at hpre1
      cases m with
      | zero =>
        have h4 : tagDelim <+: '_' :: tag := hpre1
        obtain ⟨rest, h5⟩ := (tagDelim_prefix_iff _).1 h4
        injection h5 with _ h5
        subst h5
        apply h3
        exact ⟨pre, rest, by simp [tagDelim]⟩
      | succ m =>
        have h4 : tagDelim <+: List.drop m tag := by
          have : List.drop (1 + (m + 1)) (tagDelim ++ tag) = List.drop m tag := by
            have h5 : 1 + (m + 1) = m + 1 + 1 := by omega
            rw [h5]
            rfl
          rw [this] at hpre1
          exact hpre1
        exact htag (h4.isInfix.trans (List.drop_suffix m tag).isInfix)
  unfold cutAtLast
  rw [hidx]
  simp [List.append_assoc, List.take_left]

/-- A name that holds the delimiter is the listed name, the delimiter, and the last piece
of `strings.Split`, which holds no delimiter. -/
theorem listedName_last_piece (cfg : Config) (raw : Str) (hopen : cfg.enableBasic = false)
    (hd : tagDelim <:+: raw) :
    ∃ tag, (stringsSplit raw tagDelim).getLast? = some tag ∧
      raw = listedName cfg raw ++ tagDelim ++ tag ∧ ¬ tagDelim <:+: tag := by
  obtain ⟨hne, hj, hl⟩ := splitGo_tag_spec raw.length raw (le_refl _)
  have hinit : (splitGo tagDelim raw 0).dropLast ≠ [] := by
    intro h0
    have h1 := List.dropLast_append_getLast hne
    rw [h0, List.nil_append] at h1
    rw [← h1] at hj
    simp only [stringsJoin] at hj
    rw [hj] at hl
    exact hl hd
  refine ⟨(splitGo tagDelim raw 0).getLast hne, List.getLast?_eq_getLast _ hne, ?_, hl⟩
  have h2 := stringsJoin_concat _ ((splitGo tagDelim raw 0).getLast hne) tagDelim hinit
  rw [List.dropLast_append_getLast hne, hj] at h2
  have h3 : listedName cfg raw = stringsJoin (splitGo tagDelim raw 0).dropLast tagDelim := by
    simp [listedName, hopen, stringsSplit]
  rw [h3]
  exact h2

/-- Where the last occurrence of the delimiter lies in a name that is cut in front of a
rest without delimiter: at the cut, or one character later when the rest starts with an
underscore. -/
theorem cutAtLast_of_cut (pre tag : Str) (htag : ¬ tagDelim <:+: tag) :
    cutAtLast (pre ++ tagDelim ++ tag) tagDelim =
      if tag.head? = some '_' then pre ++ ['_'] else pre := by
  have hfar : ∀ m, ¬ tagDelim <+: List.drop m tag := by
    intro m h
    exact htag (h.isInfix.trans (List.drop_suffix m tag).isInfix)
  by_cases hhead : tag.head? = some '_'
  · rw [if_pos hhead]
    obtain ⟨rest, rfl⟩ : ∃ rest, tag = '_' :: rest := by
      cases tag with
      | nil => simp at hhead
      | cons c rest =>
        simp only [List.head?_cons, Option.some.injEq] at hhead
        exact ⟨rest, by rw [hhead]⟩
    have hidx : lastIndex (pre ++ tagDelim ++ '_' :: rest) tagDelim =
        some (pre.length + 1) := by
      apply lastIndex_eq_some
      · simp [tagDelim]
      · rw [List.append_assoc, List.drop_append]
        exact List.isPrefixOf_iff_prefix.2 ⟨rest, rfl⟩
      · intro j hj
        rw [Bool.eq_false_iff]
        intro hpre
        have hpre1 := List.isPrefixOf_iff_prefix.1 hpre
        obtain ⟨m, rfl⟩ : ∃ m, j = pre.length + (m + 1 + 1) :=
          ⟨j - pre.length - 2, by omega⟩
        rw [List.append_assoc, List.drop_append] at hpre1
        exact hfar m hpre1
    unfold cutAtLast
    rw [hidx]
    have h1 : pre ++ tagDelim ++ '_' :: rest = pre ++ ('_' :: ('_' :: '_' :: rest)) := by
      simp [tagDelim]
    rw [h1]
    show List.take (pre.length + 1) (pre ++ '_' :: '_' :: '_' :: rest) = pre ++ ['_']
    rw [List.take_append]
    rfl
  · rw [if_neg hhead]
    have hidx : lastIndex (pre ++ tagDelim ++ tag) tagDelim = some pre.length := by
      apply lastIndex_eq_some
      · simp
      · rw [List.append_assoc, List.drop_left]
        exact List.isPrefixOf_iff_prefix.2 (List.prefix_append _ _)
      · intro j hj
        rw [Bool.eq_false_iff]
        intro hpre
        have hpre1 := List.isPrefixOf_iff_prefix.1 hpre
        obtain ⟨m, rfl⟩ : ∃ m, j = pre.length + (m + 1) := ⟨j - pre.length - 1, by omega⟩
        rw [List.append_assoc, List.drop_append] at hpre1
        cases m with
        | zero =>
          have h4 : tagDelim <+: '_' :: tag := hpre1
          obtain ⟨rest, h5⟩ := (tagDelim_prefix_iff _).1 h4
          injection h5 with _ h5
          apply hhead
          rw [h5]
          rfl
        | succ m => exact hfar m hpre1
    unfold cutAtLast
    rw [hidx]
    simp [List.append_assoc, List.take_left]

/-! ### The template substitution -/

theorem replaceFirst_at (old new : Str) (hold : old ≠ []) :
    ∀ (X Y : Str), (∀ i, i < X.length → ¬ old <+: (X ++ old ++ Y).drop i) →
      replaceFirst old new (X ++ old ++ Y) = X ++ new ++ Y := by
  intro X
  induction X with
  | nil =>
    intro Y _
    obtain ⟨c, cs, hc⟩ := List.exists_cons_of_ne_nil hold
    have h1 : old.isPrefixOf (old ++ Y) = true :=
      List.isPrefixOf_iff_prefix.2 (List.prefix_append _ _)
    have h2 : [] ++ old ++ Y = c :: (cs ++ Y) := by simp [hc]
    rw [h2, replaceFirst, ← h2, List.nil_append, if_pos h1, List.drop_left]
    rfl
  | cons x X ih =>
    intro Y h
    have h0 : ¬ old <+: x :: (X ++ old ++ Y) := by
      have := h 0 (by simp)
      simpa using this
    have h1 : old.isPrefixOf (x :: (X ++ old ++ Y)) = false := by
      rw [Bool.eq_false_iff]
      intro h2
      exact h0 (List.isPrefixOf_iff_prefix.1 h2)
    have h3 : x :: X ++ old ++ Y = x :: (X ++ old ++ Y) := by simp
    rw [h3, replaceFirst, if_neg (by rw [h1]; decide), ih Y]
    · simp
    · intro i hi
      have := h (i + 1) (by simp; omega)
      simpa using this

theorem prefix_of_append_cons_not_mem (P : Str) (c : Char) (hc : c ∉ P) :
    ∀ (X Y : Str), P <+: X ++ c :: Y → P <+: X := by
  intro X
  induction X generalizing P with
  | nil =>
    intro Y h
    rcases List.prefix_cons_iff.1 h with h1 | ⟨t, h1, _⟩
    · rw [h1]
    · exact absurd (by rw [h1]; exact List.mem_cons_self _ _) hc
  | cons x X ih =>
    intro Y h
    rcases List.prefix_cons_iff.1 h with h1 | ⟨t, h1, h2⟩
    · rw [h1]; exact List.nil_prefix
    · subst h1
      have ht : c ∉ t := fun hm => hc (List.mem_cons_of_mem _ hm)
      exact List.cons_prefix_cons.2 ⟨rfl, ih t ht Y h2⟩

theorem placeholder_length : placeholder.length = 8 := by decide

/-- The two substitutions on a template with exactly two placeholders, when the JSON text
holds no placeholder. -/
theorem fillTemplate_two_placeholders (cfg : Config) (A B C : Str) (files : List File)
    (hT : ∀ i, placeholder <+: (A ++ placeholder ++ B ++ placeholder ++ C).drop i →
      i = A.length ∨ i = A.length + placeholder.length + B.length)
    (hJ : ¬ placeholder <:+: jsonMarshal files) :
    fillTemplate cfg (A ++ placeholder ++ B ++ placeholder ++ C) files =
      A ++ jsonMarshal files ++ B ++
        (if cfg.enableBasic then "disable".toList else []) ++ C := by
  have hne : placeholder ≠ [] := by decide
  have first : replaceFirst placeholder (jsonMarshal files)
      (A ++ placeholder ++ B ++ placeholder ++ C) =
      A ++ jsonMarshal files ++ B ++ placeholder ++ C := by
    have h1 := replaceFirst_at placeholder (jsonMarshal files) hne A (B ++ placeholder ++ C)
      (by
        intro i hi hp
        have h2 : A ++ placeholder ++ (B ++ placeholder ++ C) =
            A ++ placeholder ++ B ++ placeholder ++ C := by simp [List.append_assoc]
        rw [h2] at hp
        rcases hT i hp with h3 | h3 <;> omega)
    simpa [List.append_assoc] using h1
  have second : ∀ R : Str, replaceFirst placeholder R
      (A ++ jsonMarshal files ++ B ++ placeholder ++ C) =
      A ++ jsonMarshal files ++ B ++ R ++ C := by
    intro R
    apply replaceFirst_at placeholder R hne (A ++ jsonMarshal files ++ B) C
    intro i hi hp
    obtain ⟨body, hbody⟩ : ∃ body, jsonMarshal files = '[' :: body ++ [']'] :=
      ⟨stringsJoin (files.map jsonFile) [','], by simp [jsonMarshal]⟩
    have hopenB : '[' ∉ placeholder := by decide
    have hcloseB : ']' ∉ placeholder := by decide
    by_cases h1 : i < A.length
    · -- the occurrence starts in `A`
      have h2 : List.drop i (A ++ jsonMarshal files ++ B ++ placeholder ++ C) =
          List.drop i A ++ '[' :: (body ++ [']'] ++ B ++ placeholder ++ C) := by
        rw [hbody]
        simp only [List.append_assoc, List.cons_append]
        rw [List.drop_append_of_le_length (le_of_lt h1)]
      rw [h2] at hp
      have h3 := prefix_of_append_cons_not_mem placeholder '[' hopenB _ _ hp
      have h4 : placeholder <+: List.drop i (A ++ placeholder ++ B ++ placeholder ++ C) := by
        simp only [List.append_assoc]
        rw [List.drop_append_of_le_length (le_of_lt h1)]
        exact h3.trans (List.prefix_append _ _)
      rcases hT i h4 with h5 | h5 <;> omega
    · by_cases h2 : i < A.length + (jsonMarshal files).length
      · -- the occurrence starts in the JSON text
        obtain ⟨j, rfl⟩ : ∃ j, i = A.length + j := ⟨i - A.length, by omega⟩
        have hj : j ≤ ('[' :: body).length := by
          have : (jsonMarshal files).length = ('[' :: body).length + 1 := by
            rw [hbody]; simp
          omega
        have h3 : List.drop (A.length + j)
            (A ++ jsonMarshal files ++ B ++ placeholder ++ C) =
            List.drop j ('[' :: body) ++ ']' :: (B ++ placeholder ++ C) := by
          rw [hbody]
          simp only [List.append_assoc]
          rw [List.drop_append]
          have h4 : '[' :: body ++ ([']'] ++ (B ++ (placeholder ++ C))) =
              ('[' :: body) ++ ']' :: (B ++ (placeholder ++ C)) := by simp
          rw [h4, List.drop_append_of_le_length hj]
        rw [h3] at hp
        have h5 := prefix_of_append_cons_not_mem placeholder ']' hcloseB _ _ hp
        apply hJ
        rw [hbody]
        exact (h5.isInfix.trans (List.drop_suffix j _).isInfix).trans
          (List.prefix_append _ _).isInfix
      · -- the occurrence starts in `B`
        obtain ⟨j, rfl⟩ : ∃ j, i = A.length + (jsonMarshal files).length + j :=
          ⟨i - A.length - (jsonMarshal files).length, by omega⟩
        have hjB : j < B.length := by
          simp only [List.length_append] at hi
          omega
        have h3 : List.drop (A.length + (jsonMarshal files).length + j)
            (A ++ jsonMarshal files ++ B ++ placeholder ++ C) =
            List.drop j (B ++ placeholder ++ C) := by
          have h4 : A ++ jsonMarshal files ++ B ++ placeholder ++ C =
              (A ++ jsonMarshal files) ++ (B ++ placeholder ++ C) := by
            simp [List.append_assoc]
          rw [h4, ← List.length_append, List.drop_append]
        have h5 : List.drop (A.length + placeholder.length + j)
            (A ++ placeholder ++ B ++ placeholder ++ C) =
            List.drop j (B ++ placeholder ++ C) := by
          have h4 : A ++ placeholder ++ B ++ placeholder ++ C =
              (A ++ placeholder) ++ (B ++ placeholder ++ C) := by
            simp [List.append_assoc]
          rw [h4, ← List.length_append, List.drop_append]
        rw [h3, ← h5] at hp
        have hlen := placeholder_length
        rcases hT _ hp with h6 | h6 <;> omega
  unfold fillTemplate
  simp only [first]
  split_ifs with hb
  · rw [second]
  · rw [second]

/-! ### Path elements and `filepath.Clean` -/


theorem splitSlash_ne_nil (p : Str) : splitSlash p ≠ [] := by
  cases p with
  | nil => simp [splitSlash]
  | cons c cs =>
    simp only [splitSlash]
    split_ifs
    · simp
    · split <;> simp

theorem splitSlash_cons (c : Char) (cs : Str) :
    splitSlash (c :: cs) =
      if c = '/' then [] :: splitSlash cs
      else
        match splitSlash cs with
        | [] => [[c]]
        | h :: t => (c :: h) :: t := by
  rw [splitSlash]

theorem splitSlash_append_slash (a b : Str) :
    splitSlash (a ++ '/' :: b) = splitSlash a ++ splitSlash b := by
  induction a with
  | nil => simp [splitSlash]
  | cons c a ih =>
    rw [List.cons_append, splitSlash_cons, splitSlash_cons]
    by_cases hc : c = '/'
    · simp [hc, ih]
    · rw [if_neg hc, if_neg hc, ih]
      rcases hsp : splitSlash a with _ | ⟨h, t⟩
      · exact absurd hsp (splitSlash_ne_nil a)
      · simp

theorem splitSlash_of_no_slash (n : Str) (h : '/' ∉ n) : splitSlash n = [n] := by
  induction n with
  | nil => simp [splitSlash]
  | cons c cs ih =>
    have hc : c ≠ '/' := fun e => h (by simp [e])
    have hcs : '/' ∉ cs := fun e => h (List.mem_cons_of_mem _ e)
    simp [splitSlash, hc, ih hcs]

theorem cleanStep_empty (rooted : Bool) (stack : List Str) :
    cleanStep rooted stack [] = stack := by
  simp [cleanStep]

theorem cleanStep_plain (rooted : Bool) (stack : List Str) (n : Str) (h : PlainName n) :
    cleanStep rooted stack n = n :: stack := by
  obtain ⟨h1, _, h3, h4⟩ := h
  simp [cleanStep, h1, h3, h4]

theorem cleanElems_append_plain (rooted : Bool) (p n : Str) (h : PlainName n) :
    cleanElems rooted (p ++ '/' :: n) = cleanElems rooted p ++ [n] := by
  unfold cleanElems
  rw [splitSlash_append_slash, splitSlash_of_no_slash n h.2.1, List.foldl_append]
  simp [cleanStep_plain rooted _ n h]

theorem cleanElems_append_slash (rooted : Bool) (p : Str) :
    cleanElems rooted (p ++ ['/']) = cleanElems rooted p := by
  unfold cleanElems
  rw [splitSlash_append_slash, List.foldl_append]
  simp [splitSlash, cleanStep_empty]

theorem mem_splitSlash_no_slash (p : Str) : ∀ e ∈ splitSlash p, '/' ∉ e := by
  induction p with
  | nil => simp [splitSlash]
  | cons c cs ih =>
    simp only [splitSlash]
    by_cases hc : c = '/'
    · simp only [hc, if_true]
      intro e he
      rcases List.mem_cons.1 he with h1 | h1
      · rw [h1]; simp
      · exact ih e h1
    · simp only [hc, if_false]
      rcases hsp : splitSlash cs with _ | ⟨h, t⟩
      · exact absurd hsp (splitSlash_ne_nil cs)
      · rw [hsp] at ih
        intro e he
        rcases List.mem_cons.1 he with h1 | h1
        · rw [h1]
          intro hm
          rcases List.mem_cons.1 hm with h2 | h2
          · exact hc h2.symm
          · exact ih h (by simp) h2
        · exact ih e (List.mem_cons_of_mem _ h1)

theorem cleanStep_elems (rooted : Bool) (stack : List Str) (c : Str)
    (hs : ∀ e ∈ stack, IsElem e) (hc : '/' ∉ c) :
    ∀ e ∈ cleanStep rooted stack c, IsElem e := by
  unfold cleanStep
  by_cases h1 : c = [] ∨ c = ['.']
  · simp only [h1, if_true]
    exact hs
  · simp only [h1, if_false]
    have hce : IsElem c := ⟨fun e => h1 (Or.inl e), hc⟩
    by_cases h2 : c = ['.', '.']
    · simp only [h2, if_true]
      cases stack with
      | nil =>
        cases rooted
        · intro e he
          simp at he
          rw [he, ← h2]
          exact hce
        · simp
      | cons top rest =>
        simp only
        split_ifs
        · intro e he
          rcases List.mem_cons.1 he with h3 | h3
          · rw [h3, ← h2]; exact hce
          · exact hs e h3
        · intro e he
          exact hs e (List.mem_cons_of_mem _ he)
    · simp only [h2, if_false]
      intro e he
      rcases List.mem_cons.1 he with h3 | h3
      · rw [h3]; exact hce
      · exact hs e h3

theorem foldl_cleanStep_elems (rooted : Bool) (comps : List Str) :
    ∀ stack : List Str, (∀ e ∈ stack, IsElem e) → (∀ c ∈ comps, '/' ∉ c) →
      ∀ e ∈ comps.foldl (cleanStep rooted) stack, IsElem e := by
  induction comps with
  | nil => intro stack hs _; simpa using hs
  | cons c comps ih =>
    intro stack hs hc
    simp only [List.foldl_cons]
    apply ih
    · exact cleanStep_elems rooted stack c hs (hc c (by simp))
    · intro c1 h1
      exact hc c1 (List.mem_cons_of_mem _ h1)

theorem cleanElems_elems (rooted : Bool) (p : Str) : ∀ e ∈ cleanElems rooted p, IsElem e := by
  intro e he
  unfold cleanElems at he
  rw [List.mem_reverse] at he
  exact foldl_cleanStep_elems rooted (splitSlash p) [] (by simp) (mem_splitSlash_no_slash p) e he

theorem stringsJoin_ne_nil (L : List Str) (hne : L ≠ []) (hL : ∀ e ∈ L, IsElem e) :
    stringsJoin L ['/'] ≠ [] := by
  cases L with
  | nil => exact absurd rfl hne
  | cons a rest =>
    have ha : a ≠ [] := (hL a (by simp)).1
    cases rest with
    | nil => simpa [stringsJoin] using ha
    | cons b rest1 => simp [stringsJoin, ha]

theorem splitSlash_stringsJoin (L : List Str) (hne : L ≠ []) (hL : ∀ e ∈ L, IsElem e) :
    splitSlash (stringsJoin L ['/']) = L := by
  induction L with
  | nil => exact absurd rfl hne
  | cons a rest ih =>
    have ha : '/' ∉ a := (hL a (by simp)).2
    cases rest with
    | nil => simpa [stringsJoin] using splitSlash_of_no_slash a ha
    | cons b rest1 =>
      have h1 : stringsJoin (a :: b :: rest1) ['/'] =
          a ++ '/' :: stringsJoin (b :: rest1) ['/'] := by simp [stringsJoin]
      rw [h1, splitSlash_append_slash, splitSlash_of_no_slash a ha,
        ih (by simp) (fun e he => hL e (List.mem_cons_of_mem _ he))]
      rfl

theorem renderPath_of_ne_nil (rt : Bool) (L : List Str) (hne : L ≠ [])
    (hL : ∀ e ∈ L, IsElem e) :
    renderPath rt L = (if rt then ['/'] else []) ++ stringsJoin L ['/'] := by
  have h := stringsJoin_ne_nil L hne hL
  cases rt <;> simp [renderPath, h]

theorem stringsJoin_head_not_slash (L : List Str) (hne : L ≠ []) (hL : ∀ e ∈ L, IsElem e) :
    isRooted (stringsJoin L ['/']) = false := by
  cases L with
  | nil => exact absurd rfl hne
  | cons a rest =>
    obtain ⟨ha, hs⟩ := hL a (by simp)
    cases a with
    | nil => exact absurd rfl ha
    | cons c cs =>
      have hc : c ≠ '/' := fun e => hs (by simp [e])
      cases rest <;> simp [stringsJoin, isRooted, hc]

theorem renderPath_concat (rt : Bool) (E : List Str) (X S : Str) (hE : ∀ e ∈ E, IsElem e)
    (hX : IsElem X) (hS : '/' ∉ S) :
    renderPath rt (E ++ [X]) ++ S = renderPath rt (E ++ [X ++ S]) := by
  have h1 : ∀ e ∈ E ++ [X], IsElem e := by
    intro e he
    rcases List.mem_append.1 he with h | h
    · exact hE e h
    · simp at h; rw [h]; exact hX
  have hXS : IsElem (X ++ S) := by
    refine ⟨by simp [hX.1], ?_⟩
    intro hm
    rcases List.mem_append.1 hm with h | h
    · exact hX.2 h
    · exact hS h
  have h2 : ∀ e ∈ E ++ [X ++ S], IsElem e := by
    intro e he
    rcases List.mem_append.1 he with h | h
    · exact hE e h
    · simp at h; rw [h]; exact hXS
  rw [renderPath_of_ne_nil rt _ (by simp) h1, renderPath_of_ne_nil rt _ (by simp) h2]
  by_cases hE0 : E = []
  · subst hE0
    simp [stringsJoin]
  · rw [stringsJoin_concat E X ['/'] hE0, stringsJoin_concat E (X ++ S) ['/'] hE0]
    simp [List.append_assoc]

theorem PlainName.isElem {n : Str} (h : PlainName n) : IsElem n := ⟨h.1, h.2.1⟩

/-- The shape of the paths the handler joins below the file directory, for the URL path
`/`: the directory itself, and a plain name in it, given as one more element or at the end
of the URL path. -/
theorem join_under_root (root : Str) :
    ∃ (rt : Bool) (E : List Str), (∀ e ∈ E, IsElem e) ∧
      Join [root, [], ['/']] = renderPath rt E ∧
      ∀ X, PlainName X →
        Join [root, [], ['/'], X] = renderPath rt (E ++ [X]) ∧
        Join [root, [], '/' :: X] = renderPath rt (E ++ [X]) := by
  cases root with
  | nil =>
    refine ⟨true, [], by simp, by decide, ?_⟩
    intro X hX
    have h1 : Join [[], [], ['/'], X] = Clean (['/'] ++ '/' :: X) := by
      simp [Join, stringsJoin]
    have h2 : Join [[], [], '/' :: X] = Clean ([] ++ '/' :: X) := by
      simp [Join, stringsJoin]
    rw [h1, h2]
    unfold Clean
    rw [if_neg (by simp), if_neg (by simp), cleanElems_append_plain _ _ _ hX,
      cleanElems_append_plain _ _ _ hX]
    constructor <;> rfl
  | cons c cs =>
    refine ⟨isRooted (c :: cs), cleanElems (isRooted (c :: cs)) (c :: cs),
      cleanElems_elems _ _, ?_, ?_⟩
    · have h1 : Join [c :: cs, [], ['/']] = Clean ((((c :: cs) ++ ['/']) ++ ['/']) ++ ['/']) := by
        simp [Join, stringsJoin]
      rw [h1]
      unfold Clean
      rw [if_neg (by simp)]
      have h2 : isRooted ((((c :: cs) ++ ['/']) ++ ['/']) ++ ['/']) = isRooted (c :: cs) := rfl
      rw [h2, cleanElems_append_slash, cleanElems_append_slash, cleanElems_append_slash]
    · intro X hX
      have h1 : Join [c :: cs, [], ['/'], X] =
          Clean (((((c :: cs) ++ ['/']) ++ ['/']) ++ ['/']) ++ '/' :: X) := by
        simp [Join, stringsJoin]
      have h2 : Join [c :: cs, [], '/' :: X] =
          Clean ((((c :: cs) ++ ['/']) ++ ['/']) ++ '/' :: X) := by
        simp [Join, stringsJoin]
      rw [h1, h2]
      unfold Clean
      rw [if_neg (by simp), if_neg (by simp)]
      have h3 : isRooted (((((c :: cs) ++ ['/']) ++ ['/']) ++ ['/']) ++ '/' :: X) =
          isRooted (c :: cs) := rfl
      have h4 : isRooted ((((c :: cs) ++ ['/']) ++ ['/']) ++ '/' :: X) =
          isRooted (c :: cs) := rfl
      rw [h3, h4, cleanElems_append_plain _ _ _ hX, cleanElems_append_plain _ _ _ hX,
        cleanElems_append_slash, cleanElems_append_slash, cleanElems_append_slash]
      exact ⟨rfl, rfl⟩

/-! ### The probe loop of the upload finds a free name -/

/-- The value of a string of decimal digits. -/
theorem digitChar_value (k : Nat) (hk : k < 10) : (Nat.digitChar k).toNat - 48 = k := by
  interval_cases k <;> rfl

theorem toDigitsCore_value (fuel : Nat) :
    ∀ (n : Nat) (ds : Str), n < fuel →
      (Nat.toDigitsCore 10 fuel n ds).foldl (fun acc c => acc * 10 + (c.toNat - 48)) 0 =
        ds.foldl (fun acc c => acc * 10 + (c.toNat - 48)) n := by
  induction fuel with
  | zero => intro n ds h; omega
  | succ fuel ih =>
    intro n ds h
    simp only [Nat.toDigitsCore]
    have hd := digitChar_value (n % 10) (Nat.mod_lt _ (by decide))
    split_ifs with h0
    · have hn : n % 10 = n := by omega
      rw [List.foldl_cons, Nat.zero_mul, Nat.zero_add, hd, hn]
    · rw [ih (n / 10) _ (by omega)]
      simp only [List.foldl_cons, hd]
      congr 1
      omega

theorem fmtD_injective : Function.Injective fmtD := by
  intro a b h
  have ha := toDigitsCore_value (a + 1) a [] (by omega)
  have hb := toDigitsCore_value (b + 1) b [] (by omega)
  simp only [List.foldl_nil] at ha hb
  unfold fmtD Nat.toDigits at h
  rw [h, hb] at ha
  exact ha.symm

theorem digitChar_ne_slash (k : Nat) (hk : k < 10) : Nat.digitChar k ≠ '/' := by
  interval_cases k <;> decide

theorem toDigitsCore_no_slash (fuel : Nat) :
    ∀ (n : Nat) (ds : Str), '/' ∉ ds → '/' ∉ Nat.toDigitsCore 10 fuel n ds := by
  induction fuel with
  | zero => intro n ds h; simpa [Nat.toDigitsCore] using h
  | succ fuel ih =>
    intro n ds h
    simp only [Nat.toDigitsCore]
    have hc : '/' ∉ Nat.digitChar (n % 10) :: ds := by
      intro hm
      rcases List.mem_cons.1 hm with h1 | h1
      · exact digitChar_ne_slash _ (Nat.mod_lt _ (by decide)) h1.symm
      · exact h h1
    split_ifs
    · exact hc
    · exact ih _ _ hc

theorem fmtD_no_slash (n : Nat) : '/' ∉ fmtD n :=
  toDigitsCore_no_slash _ _ _ (by simp)

theorem Base_ne_nil (p : Str) : Base p ≠ [] := by
  unfold Base
  by_cases hp : p = []
  · simp [hp]
  · simp only [hp, if_false]
    split_ifs with h
    · simp
    · exact h

theorem Base_slash_or_no_slash (p : Str) : Base p = ['/'] ∨ '/' ∉ Base p := by
  unfold Base
  by_cases hp : p = []
  · right
    simp [hp]
  · simp only [hp, if_false]
    split_ifs with h
    · left; rfl
    · right
      intro hm
      rw [List.mem_reverse] at hm
      have := List.mem_takeWhile_imp hm
      simp at this

theorem extScan_no_slash : ∀ (rest acc : Str), '/' ∉ acc → '/' ∉ extScan rest acc := by
  intro rest
  induction rest with
  | nil => intro acc _; simp [extScan]
  | cons c rest ih =>
    intro acc h
    simp only [extScan]
    split_ifs with h1 h2
    · simp
    · intro hm
      rcases List.mem_cons.1 hm with h3 | h3
      · rw [h2] at h3; revert h3; decide
      · exact h h3
    · apply ih
      intro hm
      rcases List.mem_cons.1 hm with h3 | h3
      · exact h1 h3.symm
      · exact h h3

theorem Ext_no_slash (p : Str) : '/' ∉ Ext p := extScan_no_slash _ _ (by simp)

theorem Join_of_dropWhile (elems : List Str) (a : Str) (t : List Str)
    (h : elems.dropWhile (fun e => e = []) = a :: t) :
    Join elems = Clean (stringsJoin (a :: t) ['/']) := by
  unfold Join
  rw [h]

theorem isRooted_plain (X : Str) (hX : PlainName X) : isRooted X = false := by
  obtain ⟨h1, h2, _, _⟩ := hX
  cases X with
  | nil => rfl
  | cons c cs =>
    have hc : c ≠ '/' := fun e => h2 (by simp [e])
    simp [isRooted, hc]

/-- `filepath.Clean` on a text that ends with a plain name after a separator (or consists
of it). -/
theorem Clean_append_plain (Q X : Str) (hQ : Q = [] ∨ ∃ Q1, Q = Q1 ++ ['/'])
    (hX : PlainName X) :
    Clean (Q ++ X) = renderPath (isRooted Q) (cleanElems (isRooted Q) Q ++ [X]) := by
  rcases hQ with hQ | ⟨Q1, hQ⟩
  · subst hQ
    have h1 : cleanElems false X = [X] := by
      unfold cleanElems
      rw [splitSlash_of_no_slash X hX.2.1]
      simp [cleanStep_plain _ _ X hX]
    simp only [List.nil_append]
    unfold Clean
    rw [if_neg hX.1, isRooted_plain X hX, h1]
    rfl
  · subst hQ
    have h1 : Q1 ++ ['/'] ++ X = Q1 ++ '/' :: X := by simp
    have h2 : isRooted (Q1 ++ '/' :: X) = isRooted (Q1 ++ ['/']) := by
      cases Q1 <;> rfl
    rw [h1]
    unfold Clean
    rw [if_neg (by simp), h2, cleanElems_append_plain _ _ _ hX, cleanElems_append_slash]

theorem dropWhile_empty_concat (Ps : List Str) (Y : Str) (hY : Y ≠ []) :
    (Ps ++ [Y]).dropWhile (fun e => e = []) = Ps.dropWhile (fun e => e = []) ++ [Y] := by
  induction Ps with
  | nil => simp [List.dropWhile, hY]
  | cons a rest ih =>
    by_cases ha : a = []
    · simp [List.dropWhile, ha, ih]
    · simp [List.dropWhile, ha]

/-- The text `filepath.Join` cleans when the last element is a plain name, possibly after
one separator. -/
theorem join_last (Ps : List Str) (S : Str) (hS : S = [] ∨ S = ['/']) :
    ∃ Q : Str, (Q = [] ∨ ∃ Q1, Q = Q1 ++ ['/']) ∧
      ∀ X : Str, X ≠ [] → Join (Ps ++ [S ++ X]) = Clean (Q ++ X) := by
  have hshape : S = [] ∨ ∃ Q1, S = Q1 ++ ['/'] := by
    rcases hS with h | h
    · exact Or.inl h
    · exact Or.inr ⟨[], by simp [h]⟩
  rcases hd : Ps.dropWhile (fun e => e = []) with _ | ⟨a, t⟩
  · refine ⟨S, hshape, ?_⟩
    intro X hX
    have hY : S ++ X ≠ [] := by simp [hX]
    rw [Join_of_dropWhile _ (S ++ X) [] (by rw [dropWhile_empty_concat _ _ hY, hd]; rfl)]
    rfl
  · refine ⟨stringsJoin (a :: t) ['/'] ++ ['/'] ++ S, ?_, ?_⟩
    · right
      rcases hS with h | h
      · exact ⟨stringsJoin (a :: t) ['/'], by simp [h]⟩
      · exact ⟨stringsJoin (a :: t) ['/'] ++ ['/'], by simp [h]⟩
    · intro X hX
      have hY : S ++ X ≠ [] := by simp [hX]
      rw [Join_of_dropWhile _ a (t ++ [S ++ X])
        (by rw [dropWhile_empty_concat _ _ hY, hd]; rfl)]
      have := stringsJoin_concat (a :: t) (S ++ X) ['/'] (by simp)
      rw [List.cons_append] at this
      rw [this]
      simp [List.append_assoc]

/-- The paths of the numbered names of an upload: one directory, and below it a plain name
for every round, different for different rounds. -/
theorem numbered_paths (cfg : Config) (name urlPath filename : Str) :
    ∃ (rt : Bool) (E : List Str) (X : Nat → Str),
      (∀ e ∈ E, IsElem e) ∧ (∀ j, PlainName (X j)) ∧ Function.Injective X ∧
      ∀ j, Join [cfg.fileDirectory, name, urlPath, numberedName filename j] =
        renderPath rt (E ++ [X j]) := by
  have key : ∀ (S A : Str), (S = [] ∨ S = ['/']) → '/' ∉ A →
      (∀ j, numberedName filename j = S ++ (A ++ '-' :: (fmtD j ++ Ext filename))) →
      ∃ (rt : Bool) (E : List Str) (X : Nat → Str),
        (∀ e ∈ E, IsElem e) ∧ (∀ j, PlainName (X j)) ∧ Function.Injective X ∧
        ∀ j, Join [cfg.fileDirectory, name, urlPath, numberedName filename j] =
          renderPath rt (E ++ [X j]) := by
    intro S A hS hA hnum
    obtain ⟨Q, hQ, hjoin⟩ := join_last [cfg.fileDirectory, name, urlPath] S hS
    have hplain : ∀ j, PlainName (A ++ '-' :: (fmtD j ++ Ext filename)) := by
      intro j
      have hmem : '-' ∈ A ++ '-' :: (fmtD j ++ Ext filename) := by simp
      refine ⟨by simp, ?_, ?_, ?_⟩
      · intro hm
        rcases List.mem_append.1 hm with h | h
        · exact hA h
        · rcases List.mem_cons.1 h with h | h
          · revert h; decide
          · rcases List.mem_append.1 h with h | h
            · exact fmtD_no_slash j h
            · exact Ext_no_slash filename h
      · intro h; rw [h] at hmem; revert hmem; decide
      · intro h; rw [h] at hmem; revert hmem; decide
    refine ⟨isRooted Q, cleanElems (isRooted Q) Q,
      fun j => A ++ '-' :: (fmtD j ++ Ext filename), cleanElems_elems _ _, hplain, ?_, ?_⟩
    · intro a b h
      have h1 := List.append_cancel_left h
      injection h1 with _ h1
      exact fmtD_injective (List.append_cancel_right h1)
    · intro j
      rw [hnum j]
      have := hjoin _ (hplain j).1
      simp only [List.cons_append, List.nil_append] at this
      rw [this]
      exact Clean_append_plain Q _ hQ (hplain j)
  rcases Base_slash_or_no_slash
      (filename.take (filename.length - (Ext filename).length)) with hb | hb
  · exact key ['/'] [] (Or.inr rfl) (by simp) (by
      intro j
      simp [numberedName, hb])
  · exact key [] _ (Or.inl rfl) hb (by
      intro j
      simp [numberedName])

/-! ### The file system -/

theorem walk_append (fs : FS) :
    ∀ (xs cur ys : List Str),
      fs.walk cur (xs ++ ys) = (fs.walk cur xs).bind (fun d => fs.walk d ys) := by
  intro xs
  induction xs with
  | nil => intro cur ys; rfl
  | cons c rest ih =>
    intro cur ys
    simp only [List.cons_append, FS.walk]
    split_ifs
    · exact ih cur ys
    · exact ih cur.dropLast ys
    · exact ih (cur ++ [c]) ys
    · rfl

theorem walk_plain (fs : FS) (cur : List Str) (X : Str) (hdir : fs.isDirAt cur = true)
    (hX : PlainName X) : fs.walk cur [X] = some (cur ++ [X]) := by
  obtain ⟨h1, _, h3, h4⟩ := hX
  simp [FS.walk, hdir, h1, h3, h4]

theorem walk_skip_empty (fs : FS) (cur : List Str) (rest : List Str) :
    fs.walk cur ([] :: rest) = if fs.isDirAt cur then fs.walk cur rest else none := by
  simp [FS.walk]

theorem walkPath_render (fs : FS) (rt : Bool) (L : List Str) (hne : L ≠ [])
    (hL : ∀ e ∈ L, IsElem e) :
    fs.walkPath (renderPath rt L) =
      fs.walk (if rt then [] else fs.cwd) ((if rt then [[]] else []) ++ L) := by
  rw [renderPath_of_ne_nil rt L hne hL]
  have hj := stringsJoin_ne_nil L hne hL
  have hs := splitSlash_stringsJoin L hne hL
  have hr := stringsJoin_head_not_slash L hne hL
  cases rt
  · simp only [Bool.false_eq_true, if_false, List.nil_append]
    unfold FS.walkPath
    rw [if_neg hj, hr, hs]
    rfl
  · simp only [if_true]
    unfold FS.walkPath
    rw [if_neg (by simp)]
    have h1 : splitSlash (['/'] ++ stringsJoin L ['/']) = [] :: L := by
      have := splitSlash_append_slash [] (stringsJoin L ['/'])
      simp only [List.nil_append] at this
      rw [List.singleton_append, this, hs]
      rfl
    rw [h1]
    rfl

/-- A plain name in a directory that exists resolves to the location of the directory
followed by the name. -/
theorem walkPath_child (fs : FS) (rt : Bool) (E : List Str) (X : Str) (d : List Str)
    (hE : ∀ e ∈ E, IsElem e) (hX : PlainName X)
    (hres : fs.walkPath (renderPath rt E) = some d) (hdir : fs.isDirAt d = true) :
    fs.walkPath (renderPath rt (E ++ [X])) = some (d ++ [X]) := by
  have h1 : ∀ e ∈ E ++ [X], IsElem e := by
    intro e he
    rcases List.mem_append.1 he with h | h
    · exact hE e h
    · simp at h; rw [h]; exact hX.isElem
  rw [walkPath_render fs rt _ (by simp) h1]
  by_cases hE0 : E = []
  · subst hE0
    cases rt
    · have h2 : fs.walkPath (renderPath false []) =
          if fs.isDirAt fs.cwd then some fs.cwd else none := by
        by_cases h3 : fs.isDirAt fs.cwd = true <;>
          simp [FS.walkPath, renderPath, stringsJoin, isRooted, splitSlash, FS.walk, h3]
      rw [h2] at hres
      split_ifs at hres with h3
      injection hres with hres
      subst hres
      simpa using walk_plain fs fs.cwd X h3 hX
    · have h2 : fs.walkPath (renderPath true []) =
          if fs.isDirAt [] then some [] else none := by
        by_cases h3 : fs.isDirAt [] = true <;>
          simp [FS.walkPath, renderPath, stringsJoin, isRooted, splitSlash, FS.walk, h3]
      rw [h2] at hres
      split_ifs at hres with h3
      injection hres with hres
      subst hres
      simp only [if_true, List.nil_append, List.singleton_append]
      rw [walk_skip_empty, if_pos h3]
      exact walk_plain fs [] X h3 hX
  · rw [walkPath_render fs rt E hE0 hE] at hres
    rw [← List.append_assoc, walk_append, hres]
    exact walk_plain fs d X hdir hX

theorem lookup_filter_ne (nodes : List (List Str × Node)) (q q1 : List Str) (h : q1 ≠ q) :
    (nodes.filter (fun e => e.1 ≠ q)).lookup q1 = nodes.lookup q1 := by
  induction nodes with
  | nil => rfl
  | cons e rest ih =>
    obtain ⟨k, n⟩ := e
    by_cases hk : k = q
    · subst hk
      have h1 : (q1 == k) = false := by simpa using h
      rw [List.filter_cons_of_neg (by simp), ih]
      simp [List.lookup, h1]
    · rw [List.filter_cons_of_pos (by simp [hk])]
      by_cases hq : q1 = k
      · subst hq
        simp [List.lookup]
      · have h1 : (q1 == k) = false := by simpa using hq
        simp only [List.lookup, h1]
        exact ih

theorem get_put_same (fs : FS) (q : List Str) (n : Node) : (fs.put q n).get q = some n := by
  simp [FS.get, FS.put, List.lookup]

theorem get_put_other (fs : FS) (q q1 : List Str) (n : Node) (h : q1 ≠ q) :
    (fs.put q n).get q1 = fs.get q1 := by
  have h1 : (q1 == q) = false := by simpa using h
  simp only [FS.get, FS.put, List.lookup, h1]
  rw [lookup_filter_ne _ _ _ h]

theorem isDirAt_put_file (fs : FS) (q : List Str) (data now : Str)
    (hq : fs.isDirAt q = false) (x : List Str) :
    (fs.put q (Node.file data now)).isDirAt x = fs.isDirAt x := by
  by_cases hx : x = q
  · subst hx
    rw [hq]
    simp [FS.isDirAt, get_put_same, Node.isDir]
  · simp [FS.isDirAt, get_put_other fs q x _ hx]

theorem walk_put_file (fs : FS) (q : List Str) (data now : Str)
    (hq : fs.isDirAt q = false) :
    ∀ (comps cur : List Str),
      (fs.put q (Node.file data now)).walk cur comps = fs.walk cur comps := by
  intro comps
  induction comps with
  | nil => intro cur; rfl
  | cons c rest ih =>
    intro cur
    simp only [FS.walk, isDirAt_put_file fs q data now hq, ih]

theorem resolve_put_file (fs : FS) (q : List Str) (data now : Str)
    (hq : fs.isDirAt q = false) (p : Str) :
    (fs.put q (Node.file data now)).resolve p = fs.resolve p := by
  unfold FS.resolve FS.walkPath
  rw [walk_put_file fs q data now hq]
  rfl

theorem resolve_of_valid (fs : FS) (p : Str) (h : validPath p = true) :
    fs.resolve p = fs.walkPath p := by
  unfold FS.resolve
  rw [if_pos h]

theorem resolve_eq_some (fs : FS) (p : Str) (q : List Str) (h : fs.resolve p = some q) :
    validPath p = true ∧ fs.walkPath p = some q := by
  unfold FS.resolve at h
  by_cases hv : validPath p = true
  · rw [if_pos hv] at h
    exact ⟨hv, h⟩
  · rw [if_neg hv] at h
    cases h

/-! ### The location of an upload -/

theorem tagged_name_plain (N P : Str) (hN : PlainName N) (hP : '/' ∉ P) :
    PlainName (N ++ (tagDelim ++ P)) := by
  obtain ⟨h1, h2, _, _⟩ := hN
  have hlen : 3 ≤ (N ++ (tagDelim ++ P)).length := by
    have : 1 ≤ N.length := List.length_pos.2 h1
    simp [tagDelim]
    omega
  refine ⟨by simp [h1], ?_, ?_, ?_⟩
  · intro hm
    rcases List.mem_append.1 hm with h | h
    · exact h2 h
    · rcases List.mem_append.1 h with h | h
      · revert h; decide
      · exact hP h
  · intro h; rw [h] at hlen; simp at hlen
  · intro h; rw [h] at hlen; simp at hlen

/-- The locations of the untagged and of the tagged path of a plain name in the file
directory, when the file directory exists. -/
theorem locate_upload (cfg : Config) (fs : FS) (N P : Str) (hN : PlainName N) (hP : '/' ∉ P)
    (hroot : ∃ node, fs.stat (Join [cfg.fileDirectory, [], ['/']]) = some node ∧
      node.isDir = true) :
    ∃ d : List Str,
      Join [cfg.fileDirectory, [], '/' :: N] = Join [cfg.fileDirectory, [], ['/'], N] ∧
      fs.walkPath (Join [cfg.fileDirectory, [], ['/'], N]) = some (d ++ [N]) ∧
      fs.walkPath (taggedPath cfg N P) = some (d ++ [N ++ (tagDelim ++ P)]) := by
  obtain ⟨rt, E, hE, hD, hX⟩ := join_under_root cfg.fileDirectory
  obtain ⟨hJ1, hJ2⟩ := hX N hN
  obtain ⟨node, hst, hnode⟩ := hroot
  rw [hD] at hst
  unfold FS.stat at hst
  rcases hres0 : fs.resolve (renderPath rt E) with _ | d
  · rw [hres0] at hst; cases hst
  · rw [hres0] at hst
    have hres := (resolve_eq_some fs _ d hres0).2
    have hget : fs.get d = some node := hst
    have hdir : fs.isDirAt d = true := by simp [FS.isDirAt, hget, hnode]
    refine ⟨d, by rw [hJ1, hJ2], ?_, ?_⟩
    · rw [hJ1]
      exact walkPath_child fs rt E N d hE hN hres hdir
    · have hS : '/' ∉ tagDelim ++ P := by
        intro hm
        rcases List.mem_append.1 hm with h | h
        · revert h; decide
        · exact hP h
      unfold taggedPath
      rw [hJ1, List.append_assoc, renderPath_concat rt E N (tagDelim ++ P) hE hN.isElem hS]
      exact walkPath_child fs rt E _ d hE (tagged_name_plain N P hN hP) hres hdir

theorem probe_none_all_exist (cfg : Config) (fs : FS) (name urlPath filename : Str) :
    ∀ (fuel i : Nat) (p : Str), probe cfg fs name urlPath filename fuel i p = none →
      ∀ k, k + 2 ≤ fuel →
        fs.stat (Join [cfg.fileDirectory, name, urlPath, numberedName filename (i + k)]) ≠
          none := by
  intro fuel
  induction fuel with
  | zero => intro i p _ k hk; omega
  | succ fuel ih =>
    intro i p h k hk
    unfold probe at h
    rcases hst : fs.stat p with _ | node
    · rw [hst] at h; cases h
    · rw [hst] at h
      simp only at h
      cases k with
      | zero =>
        obtain ⟨f1, rfl⟩ : ∃ f1, fuel = f1 + 1 := ⟨fuel - 1, by omega⟩
        unfold probe at h
        intro hnone
        rw [Nat.add_zero] at hnone
        rw [hnone] at h
        cases h
      | succ k =>
        have := ih (i + 1) _ h k (by omega)
        have he : i + (k + 1) = i + 1 + k := by omega
        rw [he]
        exact this

theorem lookup_ne_none_mem (nodes : List (List Str × Node)) (q : List Str)
    (h : nodes.lookup q ≠ none) : q ∈ nodes.map Prod.fst := by
  induction nodes with
  | nil => exact absurd rfl h
  | cons e rest ih =>
    obtain ⟨k, n⟩ := e
    by_cases hq : q = k
    · rw [hq, List.map_cons]
      exact List.mem_cons_self _ _
    · have h1 : (q == k) = false := by simpa using hq
      simp only [List.lookup, h1] at h
      simp only [List.map_cons, List.mem_cons]
      exact Or.inr (ih h)

/-- When a plain name in the directory of the elements `E` exists, it is a node of the file
system, at the location of the directory followed by the name. -/
theorem stat_child_mem (fs : FS) (rt : Bool) (E : List Str) (X : Str)
    (hE : ∀ e ∈ E, IsElem e) (hX : PlainName X)
    (h : fs.stat (renderPath rt (E ++ [X])) ≠ none) :
    ∃ d, fs.walk (if rt then [] else fs.cwd) ((if rt then [[]] else []) ++ E) = some d ∧
      d ++ [X] ∈ fs.nodes.map Prod.fst := by
  have h1 : ∀ e ∈ E ++ [X], IsElem e := by
    intro e he
    rcases List.mem_append.1 he with h | h
    · exact hE e h
    · simp at h; rw [h]; exact hX.isElem
  have hv : validPath (renderPath rt (E ++ [X])) = true := by
    by_contra hv
    apply h
    unfold FS.stat FS.resolve
    rw [if_neg hv]
  unfold FS.stat at h
  rw [resolve_of_valid fs _ hv, walkPath_render fs rt _ (by simp) h1, ← List.append_assoc,
    walk_append] at h
  rcases hw : fs.walk (if rt then [] else fs.cwd) ((if rt then [[]] else []) ++ E) with _ | d
  · rw [hw] at h
    exact absurd rfl h
  · rw [hw] at h
    refine ⟨d, rfl, ?_⟩
    simp only [Option.some_bind] at h
    by_cases hdir : fs.isDirAt d = true
    · rw [walk_plain fs d X hdir hX] at h
      simp only at h
      apply lookup_ne_none_mem
      intro hl
      apply h
      simp [FS.get, hl]
    · obtain ⟨c1, _, c3, c4⟩ := hX
      simp [FS.walk, hdir] at h

/-- The probe loop of the upload ends: with two rounds more than the file system has nodes
it finds a path at which nothing exists. -/
theorem probe_finds_free_path (cfg : Config) (fs : FS) (name urlPath filename p : Str) :
    ∃ free, probe cfg fs name urlPath filename (fs.nodes.length + 2) 1 p = some free := by
  rcases hp : probe cfg fs name urlPath filename (fs.nodes.length + 2) 1 p with _ | free
  · exfalso
    obtain ⟨rt, E, X, hE, hX, hinj, hpath⟩ := numbered_paths cfg name urlPath filename
    have hall := probe_none_all_exist cfg fs name urlPath filename _ 1 p hp
    have hmem : ∀ k, k ≤ fs.nodes.length →
        ∃ d, fs.walk (if rt then [] else fs.cwd) ((if rt then [[]] else []) ++ E) = some d ∧
          d ++ [X (1 + k)] ∈ fs.nodes.map Prod.fst := by
      intro k hk
      have := hall k (by omega)
      rw [hpath] at this
      exact stat_child_mem fs rt E _ hE (hX _) this
    obtain ⟨d, hd, _⟩ := hmem 0 (Nat.zero_le _)
    have hsub : (List.range (fs.nodes.length + 1)).map (fun k => d ++ [X (1 + k)]) ⊆
        fs.nodes.map Prod.fst := by
      intro q hq
      obtain ⟨k, hk, rfl⟩ := List.mem_map.1 hq
      obtain ⟨d1, hd1, hm⟩ := hmem k (by have := List.mem_range.1 hk; omega)
      rw [hd] at hd1
      injection hd1 with hd1
      rw [hd1]
      exact hm
    have hnodup : ((List.range (fs.nodes.length + 1)).map
        (fun k => d ++ [X (1 + k)])).Nodup := by
      apply List.Nodup.map _ (List.nodup_range _)
      intro a b hab
      have h1 := List.singleton_injective (List.append_cancel_left hab)
      have := hinj h1
      omega
    have hlen := (List.subperm_of_subset hnodup hsub).length_le
    simp at hlen
  · exact ⟨free, rfl⟩

/-- Every path the probe loop returns is free. -/
theorem probe_free (cfg : Config) (fs : FS) (name urlPath filename : Str) :
    ∀ (fuel i : Nat) (p free : Str),
      probe cfg fs name urlPath filename fuel i p = some free → fs.stat free = none := by
  intro fuel
  induction fuel with
  | zero => intro i p free h; simp [probe] at h
  | succ fuel ih =>
    intro i p free h
    unfold probe at h
    rcases hst : fs.stat p with _ | node
    · rw [hst] at h
      injection h with h
      rw [← h]
      exact hst
    · rw [hst] at h
      exact ih _ _ _ h

/-- The upload never runs out of fuel. -/
theorem upload_fuel_suffices (cfg : Config) (r : Request) (name : Str) (pass : List Str) :
    ∀ (items : List UploadItem) (i : Nat) (fs : FS) (w : Writer) (tr : List Event),
      (upload cfg r name pass items i fs w tr).outcome ≠ Outcome.outOfFuel := by
  intro items
  induction items with
  | nil => intro i fs w tr; simp [upload]
  | cons item rest ih =>
    intro i fs w tr
    unfold upload
    rcases item.content with _ | src
    · simp
    · obtain ⟨free, hfree⟩ := probe_finds_free_path cfg fs name r.urlPath item.Filename
        (Join [cfg.fileDirectory, name, r.urlPath, item.Filename])
      simp only [hfree]
      split
      · simp
      · split
        · simp
        · exact ih _ _ _ _

theorem passthrough_outcome (cfg : Config) (r : Request) (res : Result) :
    (passthrough cfg r res).outcome = res.outcome := by
  unfold passthrough
  split_ifs <;> rfl

/-- The handler never runs out of fuel: every run returns or panics. -/
theorem HttpRequest_fuel_suffices (lib : Lib) (cfg : Config) (fs : FS) (r : Request) :
    (HttpRequest lib cfg fs r).outcome ≠ Outcome.outOfFuel := by
  have hread : ∀ fs1 w p, (ReadDirectory cfg fs1 r w p).2 ≠ Outcome.outOfFuel := by
    intro fs1 w p
    unfold ReadDirectory
    repeat' split
    all_goals simp
  have hroute : ∀ fs1 name w, (route cfg fs1 r name w).outcome ≠ Outcome.outOfFuel := by
    intro fs1 name w
    unfold route
    split_ifs
    · unfold getBasic
      dsimp only
      split
      · simp
      · split_ifs
        · exact hread _ _ _
        · rw [passthrough_outcome]
          simp
    · unfold getOpen
      dsimp only
      split
      · split <;> simp
      · split_ifs
        · exact hread _ _ _
        · simp
    · unfold postUpload
      split
      · simp
      · exact upload_fuel_suffices _ _ _ _ _ _ _ _ _
    · rw [passthrough_outcome]
      simp
    · rw [passthrough_outcome]
      simp
  unfold HttpRequest
  simp only
  split_ifs
  · split
    · simp
    · split
      · simp
      · exact hroute _ _ _
  · split
    · simp
    · exact hroute _ _ _
  · exact hroute _ _ _

/-! ### C1: the user directory -/

/-- C1 (failing input). In private mode the authenticated user `alice` asks for
`/../bob/secret.txt`: the path `filepath.Join(root, "alice", path)` is
`files/bob/secret.txt`, outside `files/alice/`; a `GET` reads the file of `bob` and sends
its bytes, and for a method that is passed to WebDAV the rewritten path
`filepath.Join("alice", path)` is `bob/secret.txt`, outside `alice/`. -/
theorem private_mode_dotdot_leaves_user_directory :
    Join [privateCfg.fileDirectory, "alice".toList, "/../bob/secret.txt".toList] =
      "files/bob/secret.txt".toList ∧
    insideDir (Join [privateCfg.fileDirectory, "alice".toList])
      (Join [privateCfg.fileDirectory, "alice".toList, "/../bob/secret.txt".toList]) = false ∧
    Join [privateCfg.fileDirectory, "alice".toList, "../bob/secret.txt".toList] =
      "files/bob/secret.txt".toList ∧
    insideDir "alice".toList (Join ["alice".toList, "/../bob/secret.txt".toList]) = false ∧
    (HttpRequest sampleLib privateCfg twoUsersFS
      { getRequest "/../bob/secret.txt" [] with basicAuth := aliceAuth }).trace =
      [Event.download "files/bob/secret.txt".toList,
       Event.webdav "GET".toList "/../bob/secret.txt".toList] ∧
    (HttpRequest sampleLib privateCfg twoUsersFS
      { getRequest "/../bob/secret.txt" [] with basicAuth := aliceAuth }).w.status = some 200 ∧
    (HttpRequest sampleLib privateCfg twoUsersFS
      { getRequest "/../bob/secret.txt" [] with basicAuth := aliceAuth }).w.body = "BOB".toList ∧
    (HttpRequest sampleLib privateCfg twoUsersFS
      { method := "CONNECT".toList, urlPath := "/../bob/secret.txt".toList,
        basicAuth := aliceAuth }).trace =
      [Event.webdav "CONNECT".toList "bob/secret.txt".toList] := by
  decide

theorem foldl_cleanStep_plain (rt : Bool) (es : List Str) (hes : ∀ e ∈ es, PlainName e) :
    ∀ stack : List Str, es.foldl (cleanStep rt) stack = es.reverse ++ stack := by
  induction es with
  | nil => intro stack; rfl
  | cons e rest ih =>
    intro stack
    rw [List.foldl_cons, cleanStep_plain rt stack e (hes e (by simp)),
      ih (fun x hx => hes x (List.mem_cons_of_mem _ hx))]
    simp

theorem cleanElems_append_plains (rt : Bool) (p : Str) (es : List Str)
    (hes : ∀ e ∈ es, PlainName e) :
    cleanElems rt (p ++ '/' :: stringsJoin es ['/']) = cleanElems rt p ++ es := by
  by_cases hne : es = []
  · subst hne
    simpa [stringsJoin] using cleanElems_append_slash rt p
  · unfold cleanElems
    rw [splitSlash_append_slash,
      splitSlash_stringsJoin es hne (fun e he => (hes e he).isElem), List.foldl_append,
      foldl_cleanStep_plain rt es hes]
    simp

theorem stringsJoin_append (L es : List Str) (sep : Str) (hL : L ≠ []) (hes : es ≠ []) :
    stringsJoin (L ++ es) sep = stringsJoin L sep ++ sep ++ stringsJoin es sep := by
  induction L with
  | nil => exact absurd rfl hL
  | cons a rest ih =>
    cases rest with
    | nil =>
      cases es with
      | nil => exact absurd rfl hes
      | cons b es1 => simp [stringsJoin]
    | cons b rest1 =>
      have h1 := ih (by simp)
      show a ++ sep ++ stringsJoin (b :: rest1 ++ es) sep = _
      rw [h1]
      simp [stringsJoin, List.append_assoc]

/-- The path of a user for a URL path made of plain names (no empty element, no `.`, no
`..`): the user directory, followed by the elements of the URL path. -/
theorem join_user_clean_url (root u : Str) (es : List Str) (hu : PlainName u)
    (hes : ∀ e ∈ es, PlainName e) :
    ∃ (rt : Bool) (L : List Str), L ≠ [] ∧ (∀ e ∈ L, IsElem e) ∧
      Join [root, u] = renderPath rt L ∧
      Join [root, u, '/' :: stringsJoin es ['/']] = renderPath rt (L ++ es) := by
  cases root with
  | nil =>
    refine ⟨false, [u], by simp, ?_, ?_, ?_⟩
    · intro e he
      simp at he
      rw [he]
      exact hu.isElem
    · have h1 : Join [[], u] = Clean ([] ++ u) := by
        rw [Join_of_dropWhile _ u [] (by simp [List.dropWhile, hu.1])]
        rfl
      rw [h1, Clean_append_plain [] u (Or.inl rfl) hu]
      rfl
    · have h1 : Join [[], u, '/' :: stringsJoin es ['/']] =
          Clean ((u ++ ['/']) ++ '/' :: stringsJoin es ['/']) := by
        rw [Join_of_dropWhile _ u ['/' :: stringsJoin es ['/']]
          (by simp [List.dropWhile, hu.1])]
        simp [stringsJoin]
      have h2 : isRooted ((u ++ ['/']) ++ '/' :: stringsJoin es ['/']) = false := by
        have := isRooted_plain u hu
        cases u with
        | nil => exact absurd rfl hu.1
        | cons c cs => exact this
      have h3 : cleanElems false u = [u] := by
        unfold cleanElems
        rw [splitSlash_of_no_slash u hu.2.1]
        simp [cleanStep_plain _ _ u hu]
      rw [h1]
      unfold Clean
      rw [if_neg (by simp), h2, cleanElems_append_plains _ _ _ hes, cleanElems_append_slash,
        h3]
  | cons c cs =>
    refine ⟨isRooted (c :: cs), cleanElems (isRooted (c :: cs)) (c :: cs) ++ [u], by simp,
      ?_, ?_, ?_⟩
    · intro e he
      rcases List.mem_append.1 he with h | h
      · exact cleanElems_elems _ _ e h
      · simp at h; rw [h]; exact hu.isElem
    · have h1 : Join [c :: cs, u] = Clean ((c :: cs) ++ '/' :: u) := by
        rw [Join_of_dropWhile _ (c :: cs) [u] (by simp [List.dropWhile])]
        simp [stringsJoin]
      rw [h1]
      unfold Clean
      rw [if_neg (by simp), cleanElems_append_plain _ _ _ hu]
      rfl
    · have h1 : Join [c :: cs, u, '/' :: stringsJoin es ['/']] =
          Clean ((((c :: cs) ++ '/' :: u) ++ ['/']) ++ '/' :: stringsJoin es ['/']) := by
        rw [Join_of_dropWhile _ (c :: cs) [u, '/' :: stringsJoin es ['/']]
          (by simp [List.dropWhile])]
        simp [stringsJoin]
      rw [h1]
      unfold Clean
      rw [if_neg (by simp), cleanElems_append_plains _ _ _ hes, cleanElems_append_slash,
        cleanElems_append_plain _ _ _ hu]
      rfl

/-- For a user name that is a plain name and a URL path made of plain names, the path
`filepath.Join(root, user, path)` is the user directory itself (for the URL path `/`) or
lies inside it. -/
theorem clean_url_stays_in_user_directory (root u : Str) (es : List Str) (hu : PlainName u)
    (hes : ∀ e ∈ es, PlainName e) :
    Join [root, u, '/' :: stringsJoin es ['/']] =
      (if es = [] then Join [root, u]
       else Join [root, u] ++ '/' :: stringsJoin es ['/']) ∧
    (es ≠ [] →
      insideDir (Join [root, u]) (Join [root, u, '/' :: stringsJoin es ['/']]) = true) := by
  obtain ⟨rt, L, hL, hLe, h1, h2⟩ := join_user_clean_url root u es hu hes
  have key : Join [root, u, '/' :: stringsJoin es ['/']] =
      (if es = [] then Join [root, u]
       else Join [root, u] ++ '/' :: stringsJoin es ['/']) := by
    rw [h1, h2]
    by_cases he : es = []
    · simp [he]
    · rw [if_neg he]
      have hall : ∀ e ∈ L ++ es, IsElem e := by
        intro e hm
        rcases List.mem_append.1 hm with h | h
        · exact hLe e h
        · exact (hes e h).isElem
      rw [renderPath_of_ne_nil rt (L ++ es) (by simp [hL]) hall,
        renderPath_of_ne_nil rt L hL hLe, stringsJoin_append L es ['/'] hL he]
      simp [List.append_assoc]
  refine ⟨key, ?_⟩
  intro he
  rw [key, if_neg he]
  unfold insideDir
  apply List.isPrefixOf_iff_prefix.2
  exact ⟨stringsJoin es ['/'], by simp⟩

/-! ### C2: the credential check -/

/-- C3 (counterexample). Without basic authentication a `GET` with `Translate: f` is not
passed to the WebDAV handler: the path is rewritten, nothing is called and nothing is
written. -/
theorem open_mode_translate_f_is_dropped :
    (davRequest "GET" "/x.txt").translate = ['f'] ∧
    HttpRequest sampleLib openCfg sampleFS (davRequest "GET" "/x.txt") =
      { fs := sampleFS, w := {}, trace := [], urlPath := "/x.txt".toList,
        outcome := Outcome.returned } := by
  decide

/-- C3 (amended). A request with `Translate: f` never reaches the download, the listing or
the upload.  With basic authentication, once the credential check lets it through (and, in
private mode, the user directory exists or is created), the only call is the WebDAV handler,
with `r.URL.Path` rewritten to `filepath.Join(identity, path)`, the identity being the user
name in private mode and empty in share mode.  Without basic authentication the path is
rewritten in the same way and no handler is called. -/
theorem translate_f_goes_to_passthrough (lib : Lib) (cfg : Config) (fs : FS) (r : Request)
    (hf : r.translate = ['f']) :
    (cfg.enableBasic = false →
      HttpRequest lib cfg fs r =
        { fs := fs, w := {}, trace := [], urlPath := Join [[], r.urlPath],
          outcome := Outcome.returned }) ∧
    (cfg.enableBasic = true →
      ∀ username, checkBasicAuth lib cfg fs r (challenge {}) = Except.ok username →
        (cfg.enableShare = true →
          HttpRequest lib cfg fs r =
            { fs := fs, w := challenge {},
              trace := [Event.webdav r.method (Join [[], r.urlPath])],
              urlPath := Join [[], r.urlPath], outcome := Outcome.returned }) ∧
        (cfg.enableShare = false →
          ∀ fs1, ensureUserDir cfg fs r username = some fs1 →
            HttpRequest lib cfg fs r =
              { fs := fs1, w := challenge {},
                trace := [Event.webdav r.method (Join [username, r.urlPath])],
                urlPath := Join [username, r.urlPath], outcome := Outcome.returned })) := by
  refine ⟨?_, ?_⟩
  · intro hb
    simp [HttpRequest, route, passthrough, hb, hf]
  · intro hb username hc
    refine ⟨?_, ?_⟩
    · intro hs
      simp [HttpRequest, route, passthrough, hb, hf, hc, hs]
    · intro hs fs1 hd
      simp [HttpRequest, route, passthrough, hb, hf, hc, hs, hd]

/-- The witness of C3 (amended): `alice` sends a `PROPFIND` with `Translate: f` in private
mode. -/
theorem translate_f_goes_to_passthrough_witness :
    (davRequest "PROPFIND" "/docs").translate = ['f'] ∧
    (HttpRequest sampleLib privateCfg twoUsersFS
      { davRequest "PROPFIND" "/docs" with basicAuth := aliceAuth }).trace =
      [Event.webdav "PROPFIND".toList "alice/docs".toList] := by
  have h := (translate_f_goes_to_passthrough sampleLib privateCfg twoUsersFS
    { davRequest "PROPFIND" "/docs" with basicAuth := aliceAuth } (by decide)).2 (by decide)
    "alice".toList rfl
  refine ⟨by decide, ?_⟩
  rw [h.2 (by decide) twoUsersFS (by decide)]
  decide

/-! ### C4: the names of uploads -/

/-- C4 (failing input). Without basic authentication three uploads of `x.txt` with the
same `pass` into the empty directory all probe the untagged name `files/x.txt`, find it
free, and write the same tagged file `files/x.txt__p`: one file is left, holding the bytes
of the third upload.  With basic authentication the same three uploads leave `x.txt`,
`x-1.txt` and `x-2.txt`. -/
theorem open_mode_uploads_overwrite_each_other :
    (HttpRequest sampleLib openCfg sampleFS (uploadRequest "/" "x.txt" "one" "p")).trace =
      [Event.saved "files/x.txt__p".toList] ∧
    (HttpRequest sampleLib openCfg
      (runAll sampleLib openCfg sampleFS [uploadRequest "/" "x.txt" "one" "p"])
      (uploadRequest "/" "x.txt" "two" "p")).trace = [Event.saved "files/x.txt__p".toList] ∧
    (HttpRequest sampleLib openCfg
      (runAll sampleLib openCfg sampleFS
        [uploadRequest "/" "x.txt" "one" "p", uploadRequest "/" "x.txt" "two" "p"])
      (uploadRequest "/" "x.txt" "three" "p")).trace = [Event.saved "files/x.txt__p".toList] ∧
    (runAll sampleLib openCfg sampleFS
      [uploadRequest "/" "x.txt" "one" "p", uploadRequest "/" "x.txt" "two" "p",
       uploadRequest "/" "x.txt" "three" "p"]).readDir "files".toList =
      some [("x.txt__p".toList, Node.file "three".toList [])] ∧
    (runAll sampleLib privateCfg twoUsersFS
      [aliceUpload "one", aliceUpload "two", aliceUpload "three"]).readDir
        "files/alice".toList =
      some [("x-1.txt".toList, Node.file "two".toList []),
            ("x-2.txt".toList, Node.file "three".toList []),
            ("x.txt".toList, Node.file "one".toList [])] := by
  decide

/-! ### C5: tag on write, tag on read -/

/-- C5 (counterexample). Without basic authentication, the upload of `report.pdf` with the
`pass` value `a/b` into the empty file directory: nothing exists at `files/report.pdf`, but
`os.Create` of `files/report.pdf__a/b` fails, the upload is answered 204 and writes
nothing, and the following `GET /report.pdf?pass=a/b` is answered 404.  The upload fails
in the same way for a `pass` value with a NUL byte and for one of 300 letters. -/
theorem open_mode_upload_with_slash_in_pass :
    PlainName "report.pdf".toList ∧
    sampleFS.stat (Join [openCfg.fileDirectory, [], ['/'], "report.pdf".toList]) = none ∧
    HttpRequest sampleLib openCfg sampleFS
        (postOne "report.pdf".toList "DATA".toList "a/b".toList []) =
      { fs := sampleFS, w := httpError {} "Failed Save UploadFile".toList 204, trace := [],
        urlPath := ['/'], outcome := Outcome.returned } ∧
    (HttpRequest sampleLib openCfg sampleFS
        (postOne "report.pdf".toList "DATA".toList "a/b".toList [])).w.status = some 204 ∧
    (HttpRequest sampleLib openCfg sampleFS
        (getOne "report.pdf".toList "a/b".toList)).w.status = some 404 ∧
    HttpRequest sampleLib openCfg sampleFS
        (postOne "report.pdf".toList "DATA".toList ['a', Char.ofNat 0, 'b'] []) =
      { fs := sampleFS, w := httpError {} "Failed Save UploadFile".toList 204, trace := [],
        urlPath := ['/'], outcome := Outcome.returned } ∧
    HttpRequest sampleLib openCfg sampleFS
        (postOne "report.pdf".toList "DATA".toList (List.replicate 300 'x') []) =
      { fs := sampleFS, w := httpError {} "Failed Save UploadFile".toList 204, trace := [],
        urlPath := ['/'], outcome := Outcome.returned } := by
  decide

/-- C5 (amended). Without basic authentication, for a plain file name `N` and a password
`P` without path separator such that `<root>/N__P` is a path the system calls accept (no
NUL byte, the name `N__P` at most 255 bytes, the path shorter than 4096 bytes): when the
file directory exists, nothing exists at `<root>/N` and `<root>/N__P` is not a directory,
the `POST` to `/` of `N` with `pass=P` is answered 200 and writes the bytes at
`<root>/N__P`; the following `GET /N?pass=P` reads exactly that path and answers 200 with
the bytes; and `GET /N?pass=Q` is answered 404 for every `Q` with no file at
`<root>/N__Q`. -/
theorem open_mode_tag_on_write_is_tag_on_read (lib : Lib) (cfg : Config) (fs : FS)
    (N P data now : Str)
    (hopen : cfg.enableBasic = false) (hN : PlainName N) (hP : '/' ∉ P)
    (hvalid : validPath (taggedPath cfg N P) = true)
    (hroot : ∃ node, fs.stat (Join [cfg.fileDirectory, [], ['/']]) = some node ∧
      node.isDir = true)
    (hfree : fs.stat (Join [cfg.fileDirectory, [], ['/'], N]) = none)
    (hnd : ∀ node, fs.stat (taggedPath cfg N P) = some node → node.isDir = false) :
    (HttpRequest lib cfg fs (postOne N data P now)).outcome = Outcome.returned ∧
    (HttpRequest lib cfg fs (postOne N data P now)).w.status = some 200 ∧
    (HttpRequest lib cfg fs (postOne N data P now)).trace =
      [Event.saved (taggedPath cfg N P)] ∧
    (HttpRequest lib cfg fs (postOne N data P now)).fs.readFile (taggedPath cfg N P) =
      some data ∧
    (HttpRequest lib cfg (HttpRequest lib cfg fs (postOne N data P now)).fs
      (getOne N P)).trace = [Event.download (taggedPath cfg N P)] ∧
    (HttpRequest lib cfg (HttpRequest lib cfg fs (postOne N data P now)).fs
      (getOne N P)).w.status = some 200 ∧
    (HttpRequest lib cfg (HttpRequest lib cfg fs (postOne N data P now)).fs
      (getOne N P)).w.body = data ∧
    (∀ Q, (HttpRequest lib cfg fs (postOne N data P now)).fs.readFile (taggedPath cfg N Q) =
        none →
      (HttpRequest lib cfg (HttpRequest lib cfg fs (postOne N data P now)).fs
        (getOne N Q)).w.status = some 404) := by
  obtain ⟨d, hJ, hw0, hw1⟩ := locate_upload cfg fs N P hN hP hroot
  have hr1 : fs.resolve (taggedPath cfg N P) = some (d ++ [N ++ (tagDelim ++ P)]) := by
    rw [resolve_of_valid fs _ hvalid, hw1]
  -- nothing exists at the untagged location, when the untagged path is accepted
  have hfree0 : validPath (Join [cfg.fileDirectory, [], ['/'], N]) = true →
      fs.get (d ++ [N]) = none := by
    intro hv
    have h2 := hfree
    unfold FS.stat at h2
    rw [resolve_of_valid fs _ hv, hw0] at h2
    exact h2
  -- the node at the tagged location is not a directory
  have hq : fs.isDirAt (d ++ [N ++ (tagDelim ++ P)]) = false := by
    unfold FS.isDirAt
    rcases hg : fs.get (d ++ [N ++ (tagDelim ++ P)]) with _ | node
    · rfl
    · exact hnd node (by simp [FS.stat, hr1, hg])
  -- `os.Create` succeeds
  have hcreate : fs.create (taggedPath cfg N P) data now =
      some (fs.put (d ++ [N ++ (tagDelim ++ P)]) (Node.file data now)) := by
    unfold FS.create
    rw [hr1]
    rcases hg : fs.get (d ++ [N ++ (tagDelim ++ P)]) with _ | node
    · simp [hg]
    · cases node with
      | file data1 date1 => simp [hg]
      | dir date1 size1 => simp [FS.isDirAt, hg, Node.isDir] at hq
  -- the run of the upload
  have hpost : HttpRequest lib cfg fs (postOne N data P now) =
      { fs := fs.put (d ++ [N ++ (tagDelim ++ P)]) (Node.file data now),
        w := ({} : Writer).writeHeader 200, trace := [Event.saved (taggedPath cfg N P)],
        urlPath := ['/'], outcome := Outcome.returned } := by
    have hc := hcreate
    unfold taggedPath at hc
    simp only [List.append_assoc] at hc
    simp [HttpRequest, hopen, route, postOne, postUpload, upload, probe, hfree, hc, taggedPath]
  have hne : d ++ [N] ≠ d ++ [N ++ (tagDelim ++ P)] := by
    intro h
    have h1 := congrArg List.length (List.singleton_injective (List.append_cancel_left h))
    simp [tagDelim] at h1
  -- the file system after the upload
  have hstat0 : (fs.put (d ++ [N ++ (tagDelim ++ P)]) (Node.file data now)).stat
      (Join [cfg.fileDirectory, [], '/' :: N]) = none := by
    unfold FS.stat
    rw [resolve_put_file fs _ data now hq, hJ]
    by_cases hv : validPath (Join [cfg.fileDirectory, [], ['/'], N]) = true
    · rw [resolve_of_valid fs _ hv, hw0]
      simp only
      rw [get_put_other fs _ _ _ hne]
      exact hfree0 hv
    · unfold FS.resolve
      rw [if_neg hv]
  have hread : (fs.put (d ++ [N ++ (tagDelim ++ P)]) (Node.file data now)).readFile
      (taggedPath cfg N P) = some data := by
    unfold FS.readFile FS.stat
    rw [resolve_put_file fs _ data now hq, hr1]
    simp only
    rw [get_put_same]
  -- the run of a download
  have hget : ∀ Q, HttpRequest lib cfg
      (fs.put (d ++ [N ++ (tagDelim ++ P)]) (Node.file data now)) (getOne N Q) =
      { fs := fs.put (d ++ [N ++ (tagDelim ++ P)]) (Node.file data now),
        w := DownloadFile (fs.put (d ++ [N ++ (tagDelim ++ P)]) (Node.file data now))
          (getOne N Q) {} (taggedPath cfg N Q),
        trace := [Event.download (taggedPath cfg N Q)], urlPath := '/' :: N,
        outcome := Outcome.returned } := by
    intro Q
    have h0 := hstat0
    rw [hJ] at h0
    simp [HttpRequest, hopen, route, getOne, getOpen, h0, taggedPath, hJ]
  rw [hpost]
  refine ⟨rfl, rfl, rfl, hread, ?_, ?_, ?_, ?_⟩
  · rw [hget]
  · rw [hget]
    simp [DownloadFile, hread, Writer.write, Writer.writeHeader, Writer.addHeader, bodyAllowed]
  · rw [hget]
    simp [DownloadFile, hread, Writer.write, Writer.writeHeader, Writer.addHeader, bodyAllowed]
  · intro Q hQ
    rw [hget]
    simp only at hQ
    simp [DownloadFile, hQ, httpError, Writer.write, Writer.writeHeader, Writer.setHeader,
      bodyAllowed]

/-- The witness of C5 (amended): `report.pdf` with the `pass` value `xyz`, into the empty
sample file directory. -/
theorem open_mode_tag_on_write_is_tag_on_read_witness :
    PlainName "report.pdf".toList ∧ '/' ∉ "xyz".toList ∧
    validPath (taggedPath openCfg "report.pdf".toList "xyz".toList) = true ∧
    sampleFS.stat (Join [openCfg.fileDirectory, [], ['/'], "report.pdf".toList]) = none ∧
    (HttpRequest sampleLib openCfg sampleFS
      (postOne "report.pdf".toList "DATA".toList "xyz".toList [])).trace =
      [Event.saved "files/report.pdf__xyz".toList] ∧
    (HttpRequest sampleLib openCfg
      (HttpRequest sampleLib openCfg sampleFS
        (postOne "report.pdf".toList "DATA".toList "xyz".toList [])).fs
      (getOne "report.pdf".toList "xyz".toList)).w.body = "DATA".toList := by
  have h := open_mode_tag_on_write_is_tag_on_read sampleLib openCfg sampleFS
    "report.pdf".toList "xyz".toList "DATA".toList [] (by decide) (by decide) (by decide)
    (by decide) ⟨Node.dir [] 4096, by decide, by decide⟩ (by decide)
    (by
      intro node hnode
      have h1 : sampleFS.stat (taggedPath openCfg "report.pdf".toList "xyz".toList) = none := by
        decide
      rw [h1] at hnode
      cases hnode)
  refine ⟨by decide, by decide, by decide, by decide, ?_, h.2.2.2.2.2.2.1⟩
  rw [h.2.2.1]
  decide

/-! ### C6: the listed name of a tagged file -/

/-- C6 (counterexample). The on-disk name `a___b` holds the delimiter; its last occurrence
starts at index 2, so that the name cut there is `a_`, but `strings.Split` cuts at the
first occurrence it meets from the left and the listed name is `a`. -/
theorem listed_name_is_not_cut_at_last_occurrence :
    tagDelim <:+: "a___b".toList ∧
    lastIndex "a___b".toList tagDelim = some 2 ∧
    cutAtLast "a___b".toList tagDelim = "a_".toList ∧
    (fileInfo openCfg (getRequest "/" []) "a___b".toList false (Node.file [] [])).Name =
      "a".toList := by
  decide

/-- C6 (amended). Without basic authentication, for an on-disk name that holds the
delimiter `__`, the name `ReadDirectory` lists (with `/` appended for a directory) is the
on-disk name cut in front of the delimiter that precedes the last piece of
`strings.Split(name, "__")`: the on-disk name is the listed name, the delimiter and that
last piece, and the last piece holds no delimiter.  The cut is at the last occurrence of
the delimiter, except when the last piece starts with an underscore: then the last
occurrence lies one character after the cut.  In particular the cut is at the last
occurrence when the name has no run of three underscores. -/
theorem listed_name_of_tagged_name (cfg : Config) (r : Request) (raw : Str)
    (fileStatus : Node) (hopen : cfg.enableBasic = false) (hd : tagDelim <:+: raw) :
    ∃ tag, (stringsSplit raw tagDelim).getLast? = some tag ∧
      ¬ tagDelim <:+: tag ∧
      raw = (fileInfo cfg r raw false fileStatus).Name ++ tagDelim ++ tag ∧
      (fileInfo cfg r raw false fileStatus).Name =
        raw.take (raw.length - (tagDelim.length + tag.length)) ∧
      (fileInfo cfg r raw true fileStatus).Name =
        (fileInfo cfg r raw false fileStatus).Name ++ ['/'] ∧
      cutAtLast raw tagDelim =
        (if tag.head? = some '_' then (fileInfo cfg r raw false fileStatus).Name ++ ['_']
         else (fileInfo cfg r raw false fileStatus).Name) ∧
      (¬ ['_', '_', '_'] <:+: raw →
        (fileInfo cfg r raw false fileStatus).Name = cutAtLast raw tagDelim) := by
  obtain ⟨tag, hlast, hraw, htag⟩ := listedName_last_piece cfg raw hopen hd
  have hname : (fileInfo cfg r raw false fileStatus).Name = listedName cfg raw := by
    simp [fileInfo]
  have hdir : (fileInfo cfg r raw true fileStatus).Name = listedName cfg raw ++ ['/'] := by
    simp [fileInfo]
  rw [hname, hdir]
  refine ⟨tag, hlast, htag, hraw, ?_, rfl, ?_, listedName_eq_cutAtLast cfg raw hopen hd⟩
  · have hlen : raw.length - (tagDelim.length + tag.length) = (listedName cfg raw).length := by
      have := congrArg List.length hraw
      simp only [List.length_append] at this
      omega
    rw [hlen]
    have h1 : List.take (listedName cfg raw).length raw =
        List.take (listedName cfg raw).length (listedName cfg raw ++ (tagDelim ++ tag)) := by
      rw [← List.append_assoc, ← hraw]
    rw [h1, List.take_left]
  · have h1 := cutAtLast_of_cut (listedName cfg raw) tag htag
    rw [← hraw] at h1
    exact h1

/-- The witness of C6 (amended): the on-disk name `a__b__secret` is listed as `a__b`, at
the last occurrence of the delimiter, and the on-disk name `a___b` as `a`, one character
before it. -/
theorem listed_name_of_tagged_name_witness :
    tagDelim <:+: "a__b__secret".toList ∧
    (∃ tag, (stringsSplit "a__b__secret".toList tagDelim).getLast? = some tag ∧
      ¬ tagDelim <:+: tag ∧
      "a__b__secret".toList =
        (fileInfo openCfg (getRequest "/" []) "a__b__secret".toList false
          (Node.file [] [])).Name ++ tagDelim ++ tag) ∧
    (fileInfo openCfg (getRequest "/" []) "a__b__secret".toList false
      (Node.file [] [])).Name = "a__b".toList ∧
    (fileInfo openCfg (getRequest "/" []) "a___b".toList false
      (Node.file [] [])).Name = "a".toList := by
  obtain ⟨tag, h1, h2, h3, _⟩ := listed_name_of_tagged_name openCfg (getRequest "/" [])
    "a__b__secret".toList (Node.file [] []) (by decide) (by decide)
  exact ⟨by decide, ⟨tag, h1, h2, h3⟩, by decide, by decide⟩

/-! ### C7: `GET` without a single `pass` value -/

/-- C7 (failing input). Without basic authentication, `GET /x.txt` when `files/x.txt` does
not exist: with no `pass` value the handler writes the 404 and then indexes the empty
`pass` list, which panics; with two `pass` values it writes the 404, goes on to
`DownloadFile` with the first value and sends the bytes of `files/x.txt__p` after the error
text. -/
theorem open_get_without_single_pass_goes_on :
    (withFile sampleFS "x.txt__p" "DATA").stat "files/x.txt".toList = none ∧
    (HttpRequest sampleLib openCfg (withFile sampleFS "x.txt__p" "DATA")
      (getRequest "/x.txt" [])).outcome = Outcome.panicked ∧
    (HttpRequest sampleLib openCfg (withFile sampleFS "x.txt__p" "DATA")
      (getRequest "/x.txt" ["p", "q"])).w.status = some 404 ∧
    (HttpRequest sampleLib openCfg (withFile sampleFS "x.txt__p" "DATA")
      (getRequest "/x.txt" ["p", "q"])).trace = [Event.download "files/x.txt__p".toList] ∧
    (HttpRequest sampleLib openCfg (withFile sampleFS "x.txt__p" "DATA")
      (getRequest "/x.txt" ["p", "q"])).w.body =
      "Failed Access Dir/File".toList ++ ['\n'] ++ "DATA".toList := by
  decide

/-! ### C8: `GET` of an existing path -/

/-- C8 (counterexample). Without basic authentication a `GET` whose resolved path is an
existing regular file is answered 404, and `DownloadFile` is not called. -/
theorem open_mode_existing_file_is_not_found :
    (withFile sampleFS "x.txt" "DATA").stat
      (Join [openCfg.fileDirectory, [], "/x.txt".toList]) =
      some (Node.file "DATA".toList []) ∧
    (HttpRequest sampleLib openCfg (withFile sampleFS "x.txt" "DATA")
      (getRequest "/x.txt" ["p"])).w.status = some 404 ∧
    (HttpRequest sampleLib openCfg (withFile sampleFS "x.txt" "DATA")
      (getRequest "/x.txt" ["p"])).trace = [] := by
  decide

/-- C8 (amended). A `GET` without `Translate: f` whose resolved path exists is dispatched by
the kind of that path and by the mode.  A directory goes to `ReadDirectory` in every mode.
An existing non-directory goes to `DownloadFile` with basic authentication (a regular file
is answered 200 with its bytes, and the call of the WebDAV handler at the end of
`HttpRequest` follows), and is answered 404 without `DownloadFile` when basic
authentication is off. -/
theorem get_dispatch_on_existing_path (cfg : Config) (fs : FS) (r : Request) (name : Str)
    (w : Writer) (node : Node)
    (hf : r.translate ≠ ['f']) (hm : r.method = "GET".toList)
    (hstat : fs.stat (Join [cfg.fileDirectory, name, r.urlPath]) = some node) :
    (node.isDir = true →
      route cfg fs r name w =
        { fs := fs,
          w := (ReadDirectory cfg fs r w (Join [cfg.fileDirectory, name, r.urlPath])).1,
          trace := [Event.listing (Join [cfg.fileDirectory, name, r.urlPath])],
          urlPath := r.urlPath,
          outcome := (ReadDirectory cfg fs r w (Join [cfg.fileDirectory, name, r.urlPath])).2 }) ∧
    (node.isDir = false → cfg.enableBasic = true →
      route cfg fs r name w =
        { fs := fs, w := DownloadFile fs r w (Join [cfg.fileDirectory, name, r.urlPath]),
          trace := [Event.download (Join [cfg.fileDirectory, name, r.urlPath]),
                    Event.webdav r.method r.urlPath],
          urlPath := r.urlPath, outcome := Outcome.returned } ∧
      (w.status = none →
        (route cfg fs r name w).w.status = some 200 ∧
        ∀ data date, node = Node.file data date →
          (route cfg fs r name w).w.body = w.body ++ data)) ∧
    (node.isDir = false → cfg.enableBasic = false →
      route cfg fs r name w =
        { fs := fs, w := httpError w "Failed Access Dir/File".toList 404, trace := [],
          urlPath := r.urlPath, outcome := Outcome.returned }) := by
  refine ⟨?_, ?_, ?_⟩
  · intro hd
    by_cases hb : cfg.enableBasic = true
    · simp [route, getBasic, hf, hm, hb, hstat, hd]
    · simp [route, getOpen, hf, hm, hb, hstat, hd]
  · intro hd hb
    have hroute : route cfg fs r name w =
        { fs := fs, w := DownloadFile fs r w (Join [cfg.fileDirectory, name, r.urlPath]),
          trace := [Event.download (Join [cfg.fileDirectory, name, r.urlPath]),
                    Event.webdav r.method r.urlPath],
          urlPath := r.urlPath, outcome := Outcome.returned } := by
      simp [route, getBasic, passthrough, hf, hm, hb, hstat, hd]
    refine ⟨hroute, ?_⟩
    intro hw
    rw [hroute]
    cases node with
    | dir date size => simp [Node.isDir] at hd
    | file data date =>
      have hr : fs.readFile (Join [cfg.fileDirectory, name, r.urlPath]) = some data := by
        simp [FS.readFile, hstat]
      refine ⟨?_, ?_⟩
      · simp [DownloadFile, hr, Writer.write, Writer.writeHeader, Writer.addHeader, hw,
          bodyAllowed]
      · intro data1 date1 he
        injection he with he1 he2
        subst he1
        simp [DownloadFile, hr, Writer.write, Writer.writeHeader, Writer.addHeader, hw,
          bodyAllowed]
  · intro hd hb
    simp [route, getOpen, hf, hm, hb, hstat, hd]

/-- The witness of C8 (amended): `alice` gets her file `x.txt` in private mode. -/
theorem get_dispatch_on_existing_path_witness :
    (getRequest "/x.txt" []).translate ≠ ['f'] ∧
    (runAll sampleLib privateCfg twoUsersFS [aliceUpload "one"]).stat
      (Join [privateCfg.fileDirectory, "alice".toList, "/x.txt".toList]) =
      some (Node.file "one".toList []) ∧
    (route privateCfg (runAll sampleLib privateCfg twoUsersFS [aliceUpload "one"])
      (getRequest "/x.txt" []) "alice".toList {}).w.body = "one".toList :=
  ⟨by decide, by decide,
    ((get_dispatch_on_existing_path privateCfg
      (runAll sampleLib privateCfg twoUsersFS [aliceUpload "one"]) (getRequest "/x.txt" [])
      "alice".toList {} (Node.file "one".toList []) (by decide) (by decide) (by decide)).2.1
      (by decide) (by decide)).2 rfl |>.2 "one".toList [] rfl⟩

/-! ### C9: the listed name of an untagged file -/

/-- C9 (failing input). Without basic authentication the on-disk names `readme.txt` and
`docs` hold no delimiter: `strings.Split` gives one piece, all pieces but the last are
none, and the listed name is empty.  The entry of the file `readme.txt` has the empty name,
the path of the listed directory itself and no extension; the entry of the directory
`docs` has the name `/`. -/
theorem open_mode_untagged_name_is_emptied :
    listedName openCfg "readme.txt".toList = [] ∧
    fileInfo openCfg (getRequest "/" []) "readme.txt".toList false
        (Node.file "DATA".toList []) =
      { Name := [], Path := ['/'], Extension := [], IsDir := false, Date := [], Size := 4 } ∧
    fileInfo openCfg (getRequest "/" []) "docs".toList true (Node.dir [] 4096) =
      { Name := ['/'], Path := ['/'], Extension := "Directory".toList, IsDir := true,
        Date := [], Size := 4096 } ∧
    listFiles openCfg (withFile sampleFS "readme.txt" "DATA") (getRequest "/" [])
        "files".toList [("readme.txt".toList, Node.file "DATA".toList [])] =
      some [{ Name := [], Path := ['/'], Extension := [], IsDir := false, Date := [],
              Size := 4 }] := by
  decide

/-! ### C10: the template -/

/-- C10 (counterexample). The file `${files}__p` is listed under the name `${files}`, so
that the JSON text holds the placeholder; the second substitution then empties the
placeholder inside the JSON text and the second placeholder of the template stays. -/
theorem listing_body_with_placeholder_in_name :
    sampleTemplate =
      "<a>".toList ++ placeholder ++ "</a><b>".toList ++ placeholder ++ "</b>".toList ∧
    listFiles openCfg (withFile sampleFS "${files}__p" "DATA") (getRequest "/" [])
        "files".toList [("${files}__p".toList, Node.file "DATA".toList [])] =
      some [{ Name := "${files}".toList, Path := "/${files}".toList, Extension := [],
              IsDir := false, Date := [], Size := 4 }] ∧
    (HttpRequest sampleLib openCfg (withFile sampleFS "${files}__p" "DATA")
        (getRequest "/" [])).w.body ≠
      "<a>".toList ++
        jsonMarshal (rootEntries ++
          [{ Name := "${files}".toList, Path := "/${files}".toList, Extension := [],
             IsDir := false, Date := [], Size := 4 }]) ++
        "</a><b>".toList ++ [] ++ "</b>".toList ∧
    (HttpRequest sampleLib openCfg (withFile sampleFS "${files}__p" "DATA")
        (getRequest "/" [])).w.body =
      "<a>".toList ++
        jsonMarshal (rootEntries ++
          [{ Name := [], Path := "/${files}".toList, Extension := [],
             IsDir := false, Date := [], Size := 4 }]) ++
        "</a><b>${files}</b>".toList := by
  decide

/-- C10 (amended). For a template `A ++ ${files} ++ B ++ ${files} ++ C` with no other
occurrence of the placeholder, and a directory listing whose JSON text holds no
placeholder, the body `ReadDirectory` writes is `A ++ J ++ B ++ R ++ C`, with `J` the JSON
text of the entries and `R` the text `disable` with basic authentication and empty
without. -/
theorem listing_body_two_placeholders (cfg : Config) (fs : FS) (r : Request) (w : Writer)
    (path : Str) (entries : List (Str × Node)) (files : List File) (A B C : Str)
    (hw : w.status = none) (hwb : w.body = [])
    (hdir : fs.readDir path = some entries)
    (hlist : listFiles cfg fs r path entries = some files)
    (htemp : fs.readFile (Join [cfg.configs, "template.html".toList]) =
      some (A ++ placeholder ++ B ++ placeholder ++ C))
    (hT : ∀ i, placeholder <+: (A ++ placeholder ++ B ++ placeholder ++ C).drop i →
      i = A.length ∨ i = A.length + placeholder.length + B.length)
    (hJ : ¬ placeholder <:+: jsonMarshal (rootEntries ++ files)) :
    (ReadDirectory cfg fs r w path).2 = Outcome.returned ∧
    (ReadDirectory cfg fs r w path).1.status = some 200 ∧
    (ReadDirectory cfg fs r w path).1.body =
      A ++ jsonMarshal (rootEntries ++ files) ++ B ++
        (if cfg.enableBasic then "disable".toList else []) ++ C := by
  have h := fillTemplate_two_placeholders cfg A B C (rootEntries ++ files) hT hJ
  simp only [ReadDirectory, hdir, hlist, htemp, h]
  simp [Writer.write, Writer.writeHeader, hw, hwb, bodyAllowed]

/-- The witness of C10 (amended): the listing of `files` with the one file `x.txt__p`. -/
theorem listing_body_two_placeholders_witness :
    (ReadDirectory openCfg (withFile sampleFS "x.txt__p" "DATA") (getRequest "/" []) {}
      "files".toList).1.body =
      "<a>".toList ++
        jsonMarshal (rootEntries ++
          [{ Name := "x.txt".toList, Path := "/x.txt".toList, Extension := ".txt".toList,
             IsDir := false, Date := [], Size := 4 }]) ++
        "</a><b>".toList ++ (if openCfg.enableBasic then "disable".toList else []) ++
        "</b>".toList := by
  have hT : ∀ i, placeholder <+:
      ("<a>".toList ++ placeholder ++ "</a><b>".toList ++ placeholder ++ "</b>".toList).drop i →
      i = "<a>".toList.length ∨
        i = "<a>".toList.length + placeholder.length + "</a><b>".toList.length := by
    intro i hp
    have hi : i ≤ 30 := by
      by_contra hgt
      rw [List.drop_eq_nil_of_le (by simp [placeholder]; omega)] at hp
      exact absurd (List.prefix_nil.1 hp) (by decide)
    have hall : ∀ j, j ≤ 30 → placeholder <+:
        ("<a>".toList ++ placeholder ++ "</a><b>".toList ++ placeholder ++
          "</b>".toList).drop j →
        j = "<a>".toList.length ∨
          j = "<a>".toList.length + placeholder.length + "</a><b>".toList.length := by
      decide
    exact hall i hi hp
  exact (listing_body_two_placeholders openCfg (withFile sampleFS "x.txt__p" "DATA")
    (getRequest "/" []) {} "files".toList
    [("x.txt__p".toList, Node.file "DATA".toList [])]
    [{ Name := "x.txt".toList, Path := "/x.txt".toList, Extension := ".txt".toList,
       IsDir := false, Date := [], Size := 4 }]
    "<a>".toList "</a><b>".toList "</b>".toList rfl rfl (by decide) (by decide) (by decide)
    hT (by decide)).2.2

end WebDav
